import Mathlib

/-!
Verification of the preview/conflict engine, name cleaner, rename worker and
undo ledger of the bulk_file_renamer repository, as a shallow embedding.

Modeling conventions:
* Paths and names are Lean `String`s (lists of unicode characters).
* `os.path.normcase` is modeled as per-character ASCII lowercasing, i.e. the
  behavior on the case-insensitive platforms (Windows) that the code's
  case-handling logic is written for; on POSIX `normcase` is the identity and
  all case-only branches degenerate.
* The filesystem is a record of query functions (existence, size, mtime,
  realpath) for the preview engine, and an explicit finite association list
  of (display path, file identity) for the rename worker, keyed
  case-insensitively.
* Python `unicodedata.normalize('NFD', ·)` and category-Mn tests are modeled
  by a table covering the accented Latin letters (the combining marks it
  produces lie in U+0300..U+036F).
* Exceptions swallowed per-file by the source are not modeled (the embedded
  functions are total), matching the code paths where no exception occurs.
-/

namespace BulkRenamer

/-! ## Python string primitives -/

/-- Whitespace characters recognized by Python's `str.strip()` (ASCII part). -/
def pyWhitespace : List Char := [' ', '\t', '\n', '\r', '\x0b', '\x0c']

def isPySpace (c : Char) : Bool := pyWhitespace.contains c

/-- Characters matched by the regex class `\w` (word characters); non-ASCII
characters are treated as word characters as in Python's unicode regex mode. -/
def isWordChar (c : Char) : Bool := c.isAlphanum || c == '_' || 128 ≤ c.toNat

/-- Python `str.lower()` (ASCII case folding). -/
def lowerStr (s : String) : String := ⟨s.data.map Char.toLower⟩

/-- Model of `os.path.normcase` on the case-insensitive platform: lowercase. -/
def normcase (s : String) : String := lowerStr s

/-- Python `str.endswith`. -/
def pyEndsWith (s suf : String) : Bool := suf.data.isSuffixOf s.data

/-! ## Path manipulation (`posixpath` semantics) -/

/-- The part of a character list after its last `/` (whole list if none). -/
def afterLastSlash : List Char → List Char
  | [] => []
  | c :: rest =>
    if rest.contains '/' then afterLastSlash rest
    else if c == '/' then rest else c :: rest

/-- The suffix of a character list starting at its last `.` (empty if none). -/
def lastDotSuffix : List Char → List Char
  | [] => []
  | c :: rest =>
    if rest.contains '.' then lastDotSuffix rest
    else if c == '.' then c :: rest else []

/-- Extension of a basename, per CPython `splitext`: the suffix from the last
dot, provided some non-dot character precedes that dot (so names consisting
of leading dots, like `.bashrc`, have no extension). -/
def extAfterSlash (b : List Char) : List Char :=
  let rest := b.dropWhile (· == '.')
  if rest.contains '.' then lastDotSuffix rest else []

def extChars (l : List Char) : List Char := extAfterSlash (afterLastSlash l)

/-- `os.path.splitext(p)[1]`. -/
def splitextExt (s : String) : String := ⟨extChars s.data⟩

/-- `os.path.splitext(p)[0]`. -/
def splitextBase (s : String) : String :=
  ⟨s.data.take (s.data.length - (extChars s.data).length)⟩

/-- `os.path.basename`. -/
def basename (s : String) : String := ⟨afterLastSlash s.data⟩

/-- `os.path.dirname`. -/
def dirname (s : String) : String :=
  let pre := s.data.take (s.data.length - (afterLastSlash s.data).length)
  if pre.all (· == '/') then ⟨pre⟩
  else ⟨(pre.reverse.dropWhile (· == '/')).reverse⟩

/-- `os.path.join` for one component. -/
def pathJoin (d n : String) : String :=
  if n.data.head? = some '/' then n
  else if d = "" then n
  else if d.data.getLast? = some '/' then d ++ n
  else d ++ "/" ++ n

/-! ## Name cleaner (`app/utils/name_cleaner.py`) -/

/-- NFD decomposition table for accented Latin letters (identity elsewhere);
`'́'` etc. are the combining marks of Unicode category Mn. -/
def nfdChar : Char → List Char
  | 'á' => ['a', '́'] | 'à' => ['a', '̀'] | 'â' => ['a', '̂']
  | 'ä' => ['a', '̈'] | 'ã' => ['a', '̃']
  | 'é' => ['e', '́'] | 'è' => ['e', '̀'] | 'ê' => ['e', '̂']
  | 'ë' => ['e', '̈']
  | 'í' => ['i', '́'] | 'ì' => ['i', '̀'] | 'î' => ['i', '̂']
  | 'ï' => ['i', '̈']
  | 'ó' => ['o', '́'] | 'ò' => ['o', '̀'] | 'ô' => ['o', '̂']
  | 'ö' => ['o', '̈'] | 'õ' => ['o', '̃']
  | 'ú' => ['u', '́'] | 'ù' => ['u', '̀'] | 'û' => ['u', '̂']
  | 'ü' => ['u', '̈']
  | 'ñ' => ['n', '̃'] | 'ç' => ['c', '̧']
  | c => [c]

/-- Unicode category Mn for the combining diacritical marks block. -/
def isMn (c : Char) : Bool := 0x300 ≤ c.toNat && c.toNat ≤ 0x36F

/-- NFD-normalize then drop combining marks. -/
def nfdStrip (l : List Char) : List Char :=
  (l.flatMap nfdChar).filter (fun c => !(isMn c))

/-- Collapse adjacent repetitions of `c` (the effect of `re.sub(c+, c)`). -/
def collapseRuns (c : Char) : List Char → List Char
  | [] => []
  | [a] => [a]
  | a :: b :: rest =>
    if a == c && b == c then collapseRuns c (b :: rest)
    else a :: collapseRuns c (b :: rest)

/-- Python `str.strip(cs)`: remove characters of `cs` from both ends. -/
def stripSet (cs : List Char) (l : List Char) : List Char :=
  ((l.dropWhile (fun c => cs.contains c)).reverse.dropWhile
    (fun c => cs.contains c)).reverse

/-- Python `str.title()`: uppercase a letter after a non-letter, lowercase
after a letter. -/
def titleChars : List Char → Bool → List Char
  | [], _ => []
  | c :: rest, prevAlpha =>
    (if c.isAlpha then (if prevAlpha then c.toLower else c.toUpper) else c)
      :: titleChars rest c.isAlpha

structure CleanOpts where
  remove_special_chars : Bool := false
  replace_spaces : Bool := false
  convert_case : Bool := false
  case_type : String := "lowercase"
  remove_accents : Bool := false
deriving DecidableEq

/-- `clean_filename` from `name_cleaner.py`: split on the last `.` into base
and extension (a name with no `.` has no extension), apply the enabled
transforms to the base (accents, special chars, spaces, case), do trailing
cleanup, and reattach the extension when present. -/
def clean_filename (filename : String) (o : CleanOpts) : String :=
  if filename = "" then filename
  else
    let p := filename.data
    let pr : List Char × List Char :=
      if p.contains '.' then
        let s := lastDotSuffix p
        (p.take (p.length - s.length), s.drop 1)
      else (p, [])
    let nm := pr.1
    let nm := if o.remove_accents then nfdStrip nm else nm
    let nm := if o.remove_special_chars then
        nm.filter (fun c => isWordChar c || isPySpace c || c == '-' || c == '.')
      else nm
    let nm := if o.replace_spaces then
        stripSet ['_'] (collapseRuns '_'
          (nm.map (fun c => if c == ' ' then '_' else c)))
      else nm
    let nm := if o.convert_case then
        (if o.case_type = "lowercase" then nm.map Char.toLower
         else if o.case_type = "UPPERCASE" then nm.map Char.toUpper
         else if o.case_type = "Title Case" then titleChars nm false
         else nm)
      else nm
    let nm := stripSet ['.', ' '] (collapseRuns '.' nm)
    if pr.2 ≠ [] then (⟨nm⟩ : String) ++ "." ++ (⟨pr.2⟩ : String)
    else (⟨nm⟩ : String)

/-! ## Preview/conflict engine (`app/utils/generate_preview.py`) -/

/-- Filesystem query surface used by the preview engine. -/
structure FS where
  pathExists : String → Bool
  size : String → Int
  mtime : String → Int
  realpath : String → String

/-- Naming configuration: the keyword parameters of `generate_preview`.
The field `pre` is the `prefix` parameter of the Python function. -/
structure Config where
  pre : String := ""
  suffix : String := ""
  base_name : String := ""
  start_num : Option Int := none
  extensions : Option (List String) := none
  size_filter : Option (String × Int) := none
  date_filter : Option (String × Int) := none
  extension_lock : Bool := true
  remove_special_chars : Bool := false
  replace_spaces : Bool := false
  convert_case : Bool := false
  case_type : String := "lowercase"
  remove_accents : Bool := false

/-- `_detect_extension_change`. -/
def _detect_extension_change (old_name new_name : String) : Bool :=
  let old_ext := lowerStr (splitextExt old_name)
  let new_ext := lowerStr (splitextExt new_name)
  old_ext != new_ext && old_ext != "" && new_ext != ""

/-- The extension-filter test: the lowercased basename must end with a dot
followed by one of the filter entries (entries are used verbatim). -/
def extFilterPass (exts : List String) (fpath : String) : Bool :=
  exts.any (fun e => pyEndsWith (lowerStr (basename fpath)) ("." ++ e))

/-- The filtering pass of `generate_preview` for one file: existence,
extension filter, size filter, date filter (strict inequalities). -/
def keepFile (fs : FS) (cfg : Config) (fpath : String) : Bool :=
  fs.pathExists fpath &&
  (match cfg.extensions with
   | some exts => if exts.isEmpty then true else extFilterPass exts fpath
   | none => true) &&
  (match cfg.size_filter with
   | some p =>
     !((p.1 == ">" && decide (fs.size fpath ≤ p.2)) ||
       (p.1 == "<" && decide (p.2 ≤ fs.size fpath)) ||
       (p.1 == "=" && fs.size fpath != p.2))
   | none => true) &&
  (match cfg.date_filter with
   | some p =>
     !((p.1 == "before" && decide (p.2 ≤ fs.mtime fpath)) ||
       (p.1 == "after" && decide (fs.mtime fpath ≤ p.2)))
   | none => true)

def filteredFiles (fs : FS) (cfg : Config) (paths : List String) : List String :=
  paths.filter (keepFile fs cfg)

/-- Initial value of the sequence counter: `start_num` clamped below by 1
when present, 1 (unused) otherwise. -/
def clampedStart (cfg : Config) : Int :=
  match cfg.start_num with
  | some n => if n < 1 then 1 else n
  | none => 1

def anyCleanup (cfg : Config) : Bool :=
  cfg.remove_special_chars || cfg.replace_spaces || cfg.convert_case ||
    cfg.remove_accents

def cleanOptsOf (cfg : Config) : CleanOpts :=
  { remove_special_chars := cfg.remove_special_chars
    replace_spaces := cfg.replace_spaces
    convert_case := cfg.convert_case
    case_type := cfg.case_type
    remove_accents := cfg.remove_accents }

/-- The raw planned name, before cleanup transforms:
`prefix + name_body + number_part + suffix + ext`. -/
def rawNewName (cfg : Config) (cnt : Int) (fpath : String) : String :=
  let old_name := basename fpath
  let name_body := if cfg.base_name != "" then cfg.base_name
                   else splitextBase old_name
  let number_part := if cfg.start_num.isSome then "_" ++ toString cnt else ""
  let ext := splitextExt fpath
  cfg.pre ++ name_body ++ number_part ++ cfg.suffix ++ ext

/-- Cleanup application and empty-name fallback of the planning loop. -/
def builtName (cfg : Config) (cnt : Int) (fpath : String) : String :=
  let old_name := basename fpath
  let n := rawNewName cfg cnt fpath
  let n := if anyCleanup cfg then clean_filename n (cleanOptsOf cfg) else n
  if n = "" || stripSet pyWhitespace n.data = [] then old_name else n

/-- The raw planned names of a file list, threading the sequence counter
exactly as the planning loops do (increment only when `start_num` is set). -/
def rawPass (cfg : Config) : List String → Int → List String
  | [], _ => []
  | f :: rest, cnt =>
    rawNewName cfg cnt f ::
      rawPass cfg rest (if cfg.start_num.isSome then cnt + 1 else cnt)

/-- Both planning passes compute, per file, the same (source path, planned
name) pair; `plannedPairs` is that common computation. -/
def previewPass (cfg : Config) : List String → Int → List (String × String)
  | [], _ => []
  | f :: rest, cnt =>
    (f, builtName cfg cnt f) ::
      previewPass cfg rest (if cfg.start_num.isSome then cnt + 1 else cnt)

def plannedPairs (cfg : Config) (filtered : List String) :
    List (String × String) :=
  previewPass cfg filtered (clampedStart cfg)

/-- The entry list of `planned_names_norm` at a normalized key. -/
def plannedNormGroup (pairs : List (String × String)) (k : String) :
    List String :=
  (pairs.filter (fun pr => normcase pr.2 == k)).map Prod.fst

/-- Normalized planned destination path of one pair. -/
def plannedDest (pr : String × String) : String :=
  normcase (pathJoin (dirname pr.1) pr.2)

/-- Python dict insertion: update the value in place if the key is present,
else append. -/
def dictUpsert (k v : String) : List (String × String) → List (String × String)
  | [] => [(k, v)]
  | e :: rest => if e.1 == k then (k, v) :: rest else e :: dictUpsert k v rest

/-- The `old_to_new_norm` dictionary, in insertion order. -/
def oldToNewNorm (pairs : List (String × String)) : List (String × String) :=
  pairs.foldl (fun d pr => dictUpsert pr.1 (plannedDest pr) d) []

/-- The `for src, planned_norm in old_to_new_norm.items()` search: the first
entry whose (normalized) key equals the target, if any. -/
def swapChainLookup (pairs : List (String × String)) (normTarget : String) :
    Option String :=
  ((oldToNewNorm pairs).find? (fun e => normcase e.1 == normTarget)).map
    Prod.snd

/-- Status classification of the second pass of `generate_preview`
(`auto_resolve` is hardcoded off in the source, so the suggestion branch is
dead and not modeled). -/
def rowStatus (fs : FS) (cfg : Config) (pairs : List (String × String))
    (fpath new_name : String) : String :=
  let old_name := basename fpath
  let new_path := pathJoin (dirname fpath) new_name
  if normcase old_name == normcase new_name && old_name != new_name then
    "Ready"
  else if old_name == new_name then "No Change"
  else if cfg.extension_lock && _detect_extension_change old_name new_name then
    "Extension Locked"
  else if (plannedNormGroup pairs (normcase new_name)).length > 1 then
    let entries := plannedNormGroup pairs (normcase new_name)
    let uniqueSources := (entries.map fs.realpath).dedup
    if uniqueSources.length == 1 &&
        uniqueSources.contains (fs.realpath fpath) then "Ready"
    else "Conflict"
  else if fs.pathExists new_path && normcase new_path != normcase fpath then
    if fs.realpath new_path == fs.realpath fpath then "Ready"
    else
      match swapChainLookup pairs (normcase new_path) with
      | some occupied =>
        if occupied != normcase new_path then "Ready" else "Conflict"
      | none => "Conflict"
  else "Ready"

/-- `generate_preview`: the preview rows `(old_name, new_name, status,
source_path)` and the filtered file list. -/
def generate_preview (fs : FS) (cfg : Config) (file_paths : List String) :
    List (String × String × String × String) × List String :=
  let filtered := filteredFiles fs cfg file_paths
  let pairs := plannedPairs cfg filtered
  (pairs.map (fun pr =>
      (basename pr.1, pr.2, rowStatus fs cfg pairs pr.1 pr.2, pr.1)),
   filtered)

def previewPairs (fs : FS) (cfg : Config) (paths : List String) :
    List (String × String) :=
  plannedPairs cfg (filteredFiles fs cfg paths)

/-! ## Rename execution worker (`app/workers/file_operation_worker.py`)

The on-disk state is an association list of (display path, file identity),
keyed case-insensitively (one entry per `normcase`-distinct path). -/

structure Op where
  old_path : String
  new_path : String
deriving DecidableEq

abbrev FState := List (String × Nat)

def fsLookup (σ : FState) (p : String) : Option (String × Nat) :=
  σ.find? (fun e => normcase e.1 == normcase p)

def fsExistsP (σ : FState) (p : String) : Bool := (fsLookup σ p).isSome

/-- `os.rename` on the case-insensitive filesystem: fails when the source is
absent; otherwise the source entry is removed and the destination written. -/
def fsRename (σ : FState) (old new : String) : Option FState :=
  match fsLookup σ old with
  | none => none
  | some e =>
    some (((σ.filter (fun a => normcase a.1 != normcase old)).filter
      (fun a => normcase a.1 != normcase new)) ++ [(new, e.2)])

inductive OpResult where
  | success : OpResult
  | failure : String → OpResult
  | conflictMsg : String → OpResult
deriving DecidableEq

/-- Case-only identity change, treated as non-conflicting by the worker. -/
def isCaseOnly (old new : String) : Bool :=
  normcase old == normcase new && old != new

/-- One iteration of `FileOperationWorker.run`: the conflict pre-check, then
the rename attempt; an exception is reported as a failure message. -/
def runOp (σ : FState) (op : Op) : OpResult × FState :=
  if !isCaseOnly op.old_path op.new_path && fsExistsP σ op.new_path &&
      op.new_path != op.old_path then
    (OpResult.conflictMsg ("Conflict: " ++ op.new_path ++ " already exists"), σ)
  else
    match fsRename σ op.old_path op.new_path with
    | some σ2 => (OpResult.success, σ2)
    | none =>
      (OpResult.failure ("Failed: " ++ op.old_path ++ " → " ++ op.new_path ++
        " (no such file)"), σ)

structure RunOut where
  successes : List Op
  errors : List String
  conflicts : List String
  final : FState
deriving DecidableEq

/-- `FileOperationWorker.run`: process every operation in order, isolating
each one's outcome, and finish with the triple plus the resulting state. -/
def runOps : List Op → FState → RunOut
  | [], σ => ⟨[], [], [], σ⟩
  | op :: rest, σ =>
    let r := runOp σ op
    let out := runOps rest r.2
    match r.1 with
    | OpResult.success => ⟨op :: out.successes, out.errors, out.conflicts, out.final⟩
    | OpResult.failure m => ⟨out.successes, m :: out.errors, out.conflicts, out.final⟩
    | OpResult.conflictMsg m =>
      ⟨out.successes, out.errors, m :: out.conflicts, out.final⟩

/-! ## History/undo ledger (`app/bulk_renamer_app.py`) -/

structure Batch where
  files : List Op
  undone : Bool
deriving DecidableEq

/-- Undo operations for one batch: `old_path`/`new_path` swapped, iterating
the batch's file list in reverse order. -/
def undoOps (files : List Op) : List Op :=
  files.reverse.map (fun f => { old_path := f.new_path, new_path := f.old_path })

/-- Index of the last batch not yet undone (the generator over
`reversed(self.history)` in `undo_last_rename`). -/
def findLastActive : List Batch → Option Nat
  | [] => none
  | b :: rest =>
    match findLastActive rest with
    | some j => some (j + 1)
    | none => if b.undone then none else some 0

/-- `undo_last_rename` with its `on_undo_done` handler: run the swapped,
reversed operations of the last active batch, then mark that batch undone
(unconditionally, whatever the worker reported). -/
def undo_last_rename (σ : FState) (hist : List Batch) : FState × List Batch :=
  match findLastActive hist with
  | none => (σ, hist)
  | some i =>
    match hist[i]? with
    | none => (σ, hist)
    | some b =>
      ((runOps (undoOps b.files) σ).final, hist.set i ⟨b.files, true⟩)

/-- Insertion into a descending-sorted list (`sorted(…, reverse=True)`). -/
def insertDesc (n : Nat) : List Nat → List Nat
  | [] => [n]
  | m :: rest => if m ≤ n then n :: m :: rest else m :: insertDesc n rest

def sortDesc (l : List Nat) : List Nat := l.foldr insertDesc []

/-- Operation collection of `undo_selected_history`: selected batches in
reverse chronological order, skipping invalid indices and batches already
undone, each contributing its reversed, swapped file list. -/
def gatherOps (hist : List Batch) (checked : List Nat) : List Op :=
  (sortDesc checked).foldl (fun acc i =>
    match hist[i]? with
    | some b => if b.undone then acc else acc ++ undoOps b.files
    | none => acc) []

/-- The marking loop of `undo_selected_history.on_undo_done`: every checked
in-range batch is flagged undone. -/
def markChecked (hist : List Batch) (checked : List Nat) : List Batch :=
  checked.foldl (fun h i =>
    match h[i]? with
    | some b => h.set i ⟨b.files, true⟩
    | none => h) hist

/-- `undo_selected_history`: early return when nothing is selected or no
operations were gathered; otherwise run the combined batch and mark all
selected entries undone together. -/
def undo_selected_history (σ : FState) (hist : List Batch)
    (checked : List Nat) : FState × List Batch :=
  if checked.isEmpty then (σ, hist)
  else
    let ops := gatherOps hist checked
    if ops.isEmpty then (σ, hist)
    else ((runOps ops σ).final, markChecked hist checked)

/-- Sources of the operations of a batch are named by their on-disk spelling
at the moment they are executed (preview rows always name existing files by
their exact path). -/
def exactRun : List Op → FState → Bool
  | [], _ => true
  | op :: rest, σ =>
    (match fsLookup σ op.old_path with
     | some e => e.1 == op.old_path
     | none => true) && exactRun rest (runOp σ op).2

/-- Observational equality of filesystem states: same lookup result (display
path and file identity) for every queried path. -/
def lookupEquiv (σ τ : FState) : Prop := ∀ p, fsLookup σ p = fsLookup τ p

def swapOp (op : Op) : Op := ⟨op.new_path, op.old_path⟩

/-! ## Worker lemmas -/

lemma lookupEquiv_refl (σ : FState) : lookupEquiv σ σ := fun _ => rfl

lemma lookupEquiv_trans {σ τ υ : FState} (h₁ : lookupEquiv σ τ)
    (h₂ : lookupEquiv τ υ) : lookupEquiv σ υ :=
  fun p => (h₁ p).trans (h₂ p)

lemma fsLookup_congr_key (σ : FState) {p q : String}
    (h : normcase p = normcase q) : fsLookup σ p = fsLookup σ q := by
  unfold fsLookup; rw [h]

lemma find?_filter_of_imp {α} (l : List α) (p q : α → Bool)
    (h : ∀ a, p a = true → q a = true) :
    (l.filter q).find? p = l.find? p := by
  induction l with
  | nil => rfl
  | cons a l ih =>
    rw [List.filter_cons]
    by_cases hq : q a = true
    · rw [if_pos hq]
      by_cases hp : p a = true
      · rw [List.find?_cons_of_pos _ hp, List.find?_cons_of_pos _ hp]
      · rw [List.find?_cons_of_neg _ hp, List.find?_cons_of_neg _ hp, ih]
    · have hp : ¬ p a = true := fun hpa => hq (h a hpa)
      rw [if_neg hq, ih, List.find?_cons_of_neg _ hp]

lemma fsLookup_filter (σ : FState) (k p : String) :
    fsLookup (σ.filter (fun a => normcase a.1 != k)) p =
      if normcase p = k then none else fsLookup σ p := by
  by_cases h : normcase p = k
  · rw [if_pos h]
    unfold fsLookup
    rw [List.find?_eq_none]
    intro a ha hbeq
    have hne := List.of_mem_filter ha
    rw [beq_iff_eq] at hbeq
    rw [bne_iff_ne] at hne
    exact hne (hbeq.trans h)
  · rw [if_neg h]
    unfold fsLookup
    apply find?_filter_of_imp
    intro a hbeq
    rw [beq_iff_eq] at hbeq
    rw [bne_iff_ne]
    exact fun hk => h (hbeq ▸ hk)

lemma fsLookup_append_single (l : FState) (n : String) (f : Nat) (p : String) :
    fsLookup (l ++ [(n, f)]) p =
      (fsLookup l p).or
        (if normcase n = normcase p then some (n, f) else none) := by
  unfold fsLookup
  rw [List.find?_append]
  congr 1
  by_cases h : normcase n = normcase p
  · rw [if_pos h, List.find?_cons_of_pos _ (by simpa using h)]
  · rw [if_neg h, List.find?_cons_of_neg _ (by simpa using h)]
    rfl

lemma fsRename_eq (σ : FState) (old new : String) (d : String) (fid : Nat)
    (hl : fsLookup σ old = some (d, fid)) :
    fsRename σ old new =
      some (((σ.filter (fun a => normcase a.1 != normcase old)).filter
        (fun a => normcase a.1 != normcase new)) ++ [(new, fid)]) := by
  unfold fsRename
  rw [hl]

lemma fsRename_lookup (σ : FState) (old new : String) (σ2 : FState)
    (d : String) (fid : Nat)
    (hl : fsLookup σ old = some (d, fid))
    (hr : fsRename σ old new = some σ2) (p : String) :
    fsLookup σ2 p =
      if normcase p = normcase new then some (new, fid)
      else if normcase p = normcase old then none
      else fsLookup σ p := by
  rw [fsRename_eq σ old new d fid hl] at hr
  obtain rfl : _ = σ2 := Option.some_injective _ hr
  rw [fsLookup_append_single, fsLookup_filter, fsLookup_filter]
  by_cases h2 : normcase p = normcase new
  · simp [h2]
  · by_cases h1 : normcase p = normcase old
    · simp [h1, h2, Ne.symm h2, eq_comm]
    · simp [h1, h2, Ne.symm h2]

lemma fsExistsP_congr {σ τ : FState} (h : lookupEquiv σ τ) (p : String) :
    fsExistsP σ p = fsExistsP τ p := by
  unfold fsExistsP; rw [h]

lemma isCaseOnly_symm (a b : String) : isCaseOnly b a = isCaseOnly a b := by
  unfold isCaseOnly
  have h1 : (normcase b == normcase a) = (normcase a == normcase b) := by
    rw [Bool.eq_iff_iff]
    simp only [beq_iff_eq]
    exact eq_comm
  have h2 : (b != a) = (a != b) := by
    rw [Bool.eq_iff_iff]
    simp only [bne_iff_ne]
    exact ne_comm
  rw [h1, h2]

lemma runOp_congr {σ τ : FState} (h : lookupEquiv σ τ) (op : Op) :
    (runOp σ op).1 = (runOp τ op).1 ∧
    lookupEquiv (runOp σ op).2 (runOp τ op).2 := by
  unfold runOp
  rw [fsExistsP_congr h op.new_path]
  by_cases hc : (!isCaseOnly op.old_path op.new_path &&
      fsExistsP τ op.new_path && op.new_path != op.old_path) = true
  · rw [if_pos hc, if_pos hc]
    exact ⟨rfl, h⟩
  · rw [if_neg hc, if_neg hc]
    unfold fsRename
    rw [h op.old_path]
    cases hl : fsLookup τ op.old_path with
    | none => exact ⟨rfl, h⟩
    | some e =>
      refine ⟨rfl, fun p => ?_⟩
      show fsLookup _ p = fsLookup _ p
      rw [fsLookup_append_single, fsLookup_append_single, fsLookup_filter,
        fsLookup_filter, fsLookup_filter, fsLookup_filter, h p]

lemma runOp_success_elim {σ : FState} {op : Op} {σ1 : FState}
    (h : runOp σ op = (OpResult.success, σ1)) :
    (!isCaseOnly op.old_path op.new_path && fsExistsP σ op.new_path &&
      op.new_path != op.old_path) = false ∧
    fsRename σ op.old_path op.new_path = some σ1 := by
  unfold runOp at h
  by_cases hc : (!isCaseOnly op.old_path op.new_path &&
      fsExistsP σ op.new_path && op.new_path != op.old_path) = true
  · rw [if_pos hc] at h
    exact absurd (congrArg Prod.fst h) (by simp)
  · rw [if_neg hc] at h
    refine ⟨by simpa using hc, ?_⟩
    cases hr : fsRename σ op.old_path op.new_path with
    | none =>
      rw [hr] at h
      exact absurd (congrArg Prod.fst h) (by simp)
    | some s =>
      rw [hr] at h
      have : s = σ1 := congrArg Prod.snd h
      rw [this]

lemma runOp_inverse {σ σ1 : FState} {op : Op} {fid : Nat}
    (hex : fsLookup σ op.old_path = some (op.old_path, fid))
    (hrun : runOp σ op = (OpResult.success, σ1)) :
    (runOp σ1 (swapOp op)).1 = OpResult.success ∧
    lookupEquiv (runOp σ1 (swapOp op)).2 σ := by
  obtain ⟨hc, hr⟩ := runOp_success_elim hrun
  have hσ1 : ∀ p, fsLookup σ1 p =
      if normcase p = normcase op.new_path then some (op.new_path, fid)
      else if normcase p = normcase op.old_path then none
      else fsLookup σ p :=
    fun p => fsRename_lookup σ _ _ σ1 _ fid hex hr p
  have hnewlook : fsLookup σ1 op.new_path = some (op.new_path, fid) := by
    rw [hσ1 op.new_path, if_pos rfl]
  -- the undo rename always finds its source
  have hswap_ren :
      fsRename σ1 op.new_path op.old_path =
        some (((σ1.filter (fun a => normcase a.1 != normcase op.new_path)).filter
          (fun a => normcase a.1 != normcase op.old_path)) ++
          [(op.old_path, fid)]) :=
    fsRename_eq σ1 op.new_path op.old_path op.new_path fid hnewlook
  -- the undo conflict pre-check never fires
  have hnoconf : (!isCaseOnly op.new_path op.old_path &&
      fsExistsP σ1 op.old_path && op.old_path != op.new_path) = false := by
    by_cases heq : op.old_path = op.new_path
    · simp [heq]
    · by_cases hco : isCaseOnly op.old_path op.new_path = true
      · rw [isCaseOnly_symm, hco]
        simp
      · -- genuine move: the vacated source no longer exists
        have hanorm : normcase op.old_path ≠ normcase op.new_path := by
          unfold isCaseOnly at hco
          simp only [Bool.and_eq_true, beq_iff_eq, bne_iff_ne] at hco
          intro hn
          exact hco ⟨hn, heq⟩
        have : fsLookup σ1 op.old_path = none := by
          rw [hσ1 op.old_path, if_neg hanorm, if_pos rfl]
        have hex1 : fsExistsP σ1 op.old_path = false := by
          unfold fsExistsP; rw [this]; rfl
        rw [hex1]
        simp
  have hrun2 : runOp σ1 (swapOp op) =
      (OpResult.success,
        ((σ1.filter (fun a => normcase a.1 != normcase op.new_path)).filter
          (fun a => normcase a.1 != normcase op.old_path)) ++
          [(op.old_path, fid)]) := by
    unfold runOp swapOp
    rw [if_neg (by simp [hnoconf])]
    simp only
    rw [hswap_ren]
  rw [hrun2]
  refine ⟨rfl, fun p => ?_⟩
  have hσ2 : fsLookup _ p =
      if normcase p = normcase op.old_path then some (op.old_path, fid)
      else if normcase p = normcase op.new_path then none
      else fsLookup σ1 p :=
    fsRename_lookup σ1 op.new_path op.old_path _ op.new_path fid hnewlook
      hswap_ren p
  rw [hσ2]
  by_cases h1 : normcase p = normcase op.old_path
  · rw [if_pos h1, fsLookup_congr_key σ h1, hex]
  · rw [if_neg h1]
    by_cases h2 : normcase p = normcase op.new_path
    · rw [if_pos h2]
      -- the destination was free before the batch ran (or it was the source)
      by_cases heq : op.old_path = op.new_path
      · exact absurd (h2.trans (congrArg normcase heq).symm) h1
      · by_cases hco : isCaseOnly op.old_path op.new_path = true
        · unfold isCaseOnly at hco
          simp only [Bool.and_eq_true, beq_iff_eq, bne_iff_ne] at hco
          exact absurd (h2.trans hco.1.symm) h1
        · have hanorm : normcase op.old_path ≠ normcase op.new_path := by
            unfold isCaseOnly at hco
            simp only [Bool.and_eq_true, beq_iff_eq, bne_iff_ne] at hco
            intro hn
            exact hco ⟨hn, heq⟩
          have hnex : fsExistsP σ op.new_path = false := by
            rcases Bool.and_eq_false_iff.mp hc with h | h
            · rcases Bool.and_eq_false_iff.mp h with h' | h'
              · rw [Bool.not_eq_false'] at h'
                exact absurd h' hco
              · exact h'
            · rw [bne_eq_false_iff_eq] at h
              exact absurd h.symm heq
          have : fsLookup σ op.new_path = none := by
            unfold fsExistsP at hnex
            exact Option.not_isSome_iff_eq_none.mp (by rw [hnex]; simp)
          rw [fsLookup_congr_key σ h2, this]
    · rw [if_neg h2, hσ1 p, if_neg h2, if_neg h1]

lemma runOps_cons (op : Op) (rest : List Op) (σ : FState) :
    runOps (op :: rest) σ =
      let r := runOp σ op
      let out := runOps rest r.2
      match r.1 with
      | OpResult.success =>
        ⟨op :: out.successes, out.errors, out.conflicts, out.final⟩
      | OpResult.failure m =>
        ⟨out.successes, m :: out.errors, out.conflicts, out.final⟩
      | OpResult.conflictMsg m =>
        ⟨out.successes, out.errors, m :: out.conflicts, out.final⟩ := rfl

lemma runOps_append (l₁ l₂ : List Op) (σ : FState) :
    runOps (l₁ ++ l₂) σ =
      ⟨(runOps l₁ σ).successes ++ (runOps l₂ (runOps l₁ σ).final).successes,
       (runOps l₁ σ).errors ++ (runOps l₂ (runOps l₁ σ).final).errors,
       (runOps l₁ σ).conflicts ++ (runOps l₂ (runOps l₁ σ).final).conflicts,
       (runOps l₂ (runOps l₁ σ).final).final⟩ := by
  induction l₁ generalizing σ with
  | nil => rfl
  | cons op rest ih =>
    rw [List.cons_append, runOps_cons, runOps_cons]
    simp only
    rw [ih]
    cases (runOp σ op).1 <;> rfl

lemma runOps_congr (ops : List Op) {σ τ : FState} (h : lookupEquiv σ τ) :
    (runOps ops σ).successes = (runOps ops τ).successes ∧
    (runOps ops σ).errors = (runOps ops τ).errors ∧
    (runOps ops σ).conflicts = (runOps ops τ).conflicts ∧
    lookupEquiv (runOps ops σ).final (runOps ops τ).final := by
  induction ops generalizing σ τ with
  | nil => exact ⟨rfl, rfl, rfl, h⟩
  | cons op rest ih =>
    obtain ⟨h1, h2⟩ := runOp_congr h op
    obtain ⟨i1, i2, i3, i4⟩ := ih h2
    rw [runOps_cons, runOps_cons]
    simp only
    rw [h1]
    cases (runOp τ op).1 <;>
      exact ⟨by rw [i1], by rw [i2], by rw [i3], i4⟩

lemma runOps_cons_success {σ : FState} {op : Op} (rest : List Op)
    (h : (runOp σ op).1 = OpResult.success) :
    runOps (op :: rest) σ =
      ⟨op :: (runOps rest (runOp σ op).2).successes,
       (runOps rest (runOp σ op).2).errors,
       (runOps rest (runOp σ op).2).conflicts,
       (runOps rest (runOp σ op).2).final⟩ := by
  rw [runOps_cons]
  simp only
  rw [h]

lemma runOps_cons_failure {σ : FState} {op : Op} (rest : List Op) {m : String}
    (h : (runOp σ op).1 = OpResult.failure m) :
    runOps (op :: rest) σ =
      ⟨(runOps rest (runOp σ op).2).successes,
       m :: (runOps rest (runOp σ op).2).errors,
       (runOps rest (runOp σ op).2).conflicts,
       (runOps rest (runOp σ op).2).final⟩ := by
  rw [runOps_cons]
  simp only
  rw [h]

lemma runOps_cons_conflict {σ : FState} {op : Op} (rest : List Op) {m : String}
    (h : (runOp σ op).1 = OpResult.conflictMsg m) :
    runOps (op :: rest) σ =
      ⟨(runOps rest (runOp σ op).2).successes,
       (runOps rest (runOp σ op).2).errors,
       m :: (runOps rest (runOp σ op).2).conflicts,
       (runOps rest (runOp σ op).2).final⟩ := by
  rw [runOps_cons]
  simp only
  rw [h]

lemma allOk_head {σ : FState} {op : Op} {rest : List Op}
    (he : (runOps (op :: rest) σ).errors = [])
    (hc : (runOps (op :: rest) σ).conflicts = []) :
    (runOp σ op).1 = OpResult.success ∧
    (runOps rest (runOp σ op).2).errors = [] ∧
    (runOps rest (runOp σ op).2).conflicts = [] := by
  cases hr : (runOp σ op).1 with
  | success =>
    rw [runOps_cons_success rest hr] at he hc
    exact ⟨rfl, he, hc⟩
  | failure m =>
    rw [runOps_cons_failure rest hr] at he
    exact absurd he (by simp)
  | conflictMsg m =>
    rw [runOps_cons_conflict rest hr] at hc
    exact absurd hc (by simp)

lemma successes_eq_of_allOk {ops : List Op} {σ : FState}
    (he : (runOps ops σ).errors = [])
    (hc : (runOps ops σ).conflicts = []) :
    (runOps ops σ).successes = ops := by
  induction ops generalizing σ with
  | nil => rfl
  | cons op rest ih =>
    obtain ⟨hs, he', hc'⟩ := allOk_head he hc
    rw [runOps_cons_success rest hs]
    exact congrArg (op :: ·) (ih he' hc')

lemma undoOps_cons (op : Op) (rest : List Op) :
    undoOps (op :: rest) = undoOps rest ++ [swapOp op] := by
  unfold undoOps swapOp
  rw [List.reverse_cons, List.map_append]
  rfl

lemma runOps_single_final (op : Op) (σ : FState) :
    (runOps [op] σ).final = (runOp σ op).2 := by
  rw [runOps_cons]
  simp only
  cases (runOp σ op).1 <;> rfl

lemma exactRun_cons {op : Op} {rest : List Op} {σ : FState}
    (h : exactRun (op :: rest) σ = true) :
    (match fsLookup σ op.old_path with
     | some e => e.1 == op.old_path
     | none => true) = true ∧
    exactRun rest (runOp σ op).2 = true := by
  have heq : exactRun (op :: rest) σ =
      ((match fsLookup σ op.old_path with
        | some e => e.1 == op.old_path
        | none => true) && exactRun rest (runOp σ op).2) := rfl
  rw [heq, Bool.and_eq_true] at h
  exact h

/-- Executing a batch whose every operation succeeds, then executing its undo
batch (paths swapped, reverse order), restores the original filesystem
state. -/
lemma roundtripAux : ∀ (ops : List Op) (σ : FState),
    exactRun ops σ = true →
    (runOps ops σ).errors = [] →
    (runOps ops σ).conflicts = [] →
    lookupEquiv (runOps (undoOps ops) (runOps ops σ).final).final σ := by
  intro ops
  induction ops with
  | nil => exact fun σ _ _ _ => lookupEquiv_refl σ
  | cons op rest ih =>
    intro σ hx he hc
    obtain ⟨hhead, hx'⟩ := exactRun_cons hx
    obtain ⟨hs, he', hc'⟩ := allOk_head he hc
    have hop : runOp σ op = (OpResult.success, (runOp σ op).2) := by
      have : runOp σ op = ((runOp σ op).1, (runOp σ op).2) := rfl
      rw [this, hs]
    obtain ⟨d, fid, hlook⟩ :
        ∃ d fid, fsLookup σ op.old_path = some (d, fid) := by
      obtain ⟨-, hr⟩ := runOp_success_elim hop
      unfold fsRename at hr
      cases hl : fsLookup σ op.old_path with
      | none => rw [hl] at hr; exact absurd hr (by simp)
      | some e => exact ⟨e.1, e.2, rfl⟩
    have hexact : fsLookup σ op.old_path = some (op.old_path, fid) := by
      rw [hlook] at hhead ⊢
      simp only [beq_iff_eq] at hhead
      rw [hhead]
    have hinv := runOp_inverse hexact hop
    rw [runOps_cons_success rest hs]
    rw [undoOps_cons, runOps_append, runOps_single_final]
    have hIH := ih (runOp σ op).2 hx' he' hc'
    obtain ⟨-, hcg⟩ := runOp_congr hIH (swapOp op)
    exact lookupEquiv_trans hcg hinv.2

/-- Outcome test used to state that an operation was not classified as a
conflict. -/
def isConflictRes : OpResult → Bool
  | OpResult.conflictMsg _ => true
  | _ => false

lemma runOp_caseOnly_not_conflict (σ : FState) (op : Op)
    (h : isCaseOnly op.old_path op.new_path = true) :
    isConflictRes (runOp σ op).1 = false := by
  unfold runOp
  rw [h]
  rw [if_neg (by simp)]
  cases fsRename σ op.old_path op.new_path <;> rfl

lemma runOp_dest_occupied (σ : FState) (op : Op)
    (h1 : isCaseOnly op.old_path op.new_path = false)
    (h2 : fsExistsP σ op.new_path = true)
    (h3 : op.new_path ≠ op.old_path) :
    runOp σ op =
      (OpResult.conflictMsg ("Conflict: " ++ op.new_path ++ " already exists"),
        σ) := by
  unfold runOp
  rw [if_pos (by simp [h1, h2, h3])]

lemma runOp_success_rename {σ : FState} {op : Op}
    (h : (runOp σ op).1 = OpResult.success) :
    fsRename σ op.old_path op.new_path = some (runOp σ op).2 := by
  have hop : runOp σ op = (OpResult.success, (runOp σ op).2) := by
    have : runOp σ op = ((runOp σ op).1, (runOp σ op).2) := rfl
    rw [this, h]
  exact (runOp_success_elim hop).2

lemma runOp_not_success_state {σ : FState} {op : Op}
    (h : (runOp σ op).1 ≠ OpResult.success) : (runOp σ op).2 = σ := by
  by_cases hc : (!isCaseOnly op.old_path op.new_path &&
      fsExistsP σ op.new_path && op.new_path != op.old_path) = true
  · unfold runOp
    rw [if_pos hc]
  · unfold runOp at h ⊢
    rw [if_neg hc] at h ⊢
    cases hr : fsRename σ op.old_path op.new_path with
    | some s => rw [hr] at h; exact absurd rfl h
    | none => rfl

lemma runOps_length (ops : List Op) (σ : FState) :
    (runOps ops σ).successes.length + (runOps ops σ).errors.length +
      (runOps ops σ).conflicts.length = ops.length := by
  induction ops generalizing σ with
  | nil => rfl
  | cons op rest ih =>
    have hr := ih (runOp σ op).2
    cases hs : (runOp σ op).1 with
    | success =>
      rw [runOps_cons_success rest hs]
      simp only [List.length_cons]
      omega
    | failure m =>
      rw [runOps_cons_failure rest hs]
      simp only [List.length_cons]
      omega
    | conflictMsg m =>
      rw [runOps_cons_conflict rest hs]
      simp only [List.length_cons]
      omega

lemma runOps_successes_sublist (ops : List Op) (σ : FState) :
    (runOps ops σ).successes.Sublist ops := by
  induction ops generalizing σ with
  | nil => exact List.Sublist.refl _
  | cons op rest ih =>
    cases hs : (runOp σ op).1 with
    | success =>
      rw [runOps_cons_success rest hs]
      exact List.Sublist.cons₂ op (ih _)
    | failure m =>
      rw [runOps_cons_failure rest hs]
      exact List.Sublist.cons op (ih _)
    | conflictMsg m =>
      rw [runOps_cons_conflict rest hs]
      exact List.Sublist.cons op (ih _)

lemma markChecked_cons (hist : List Batch) (j : Nat) (rest : List Nat) :
    markChecked hist (j :: rest) =
      markChecked (match hist[j]? with
        | some b => hist.set j ⟨b.files, true⟩
        | none => hist) rest := rfl

lemma markChecked_get_notMem {checked : List Nat} {i : Nat}
    (hist : List Batch) (h : i ∉ checked) :
    (markChecked hist checked)[i]? = hist[i]? := by
  induction checked generalizing hist with
  | nil => rfl
  | cons j rest ih =>
    have hij : j ≠ i := fun e => h (e ▸ List.mem_cons_self j rest)
    have hrest : i ∉ rest := fun e => h (List.mem_cons_of_mem j e)
    rw [markChecked_cons, ih _ hrest]
    cases hj : hist[j]? with
    | none => rfl
    | some b => exact List.getElem?_set_ne hij

lemma markChecked_get_mem {checked : List Nat} {i : Nat} {b : Batch}
    (hist : List Batch) (hmem : i ∈ checked) (hget : hist[i]? = some b) :
    (markChecked hist checked)[i]? = some ⟨b.files, true⟩ := by
  induction checked generalizing hist b with
  | nil => cases hmem
  | cons j rest ih =>
    rw [markChecked_cons]
    by_cases hij : i = j
    · subst hij
      rw [hget]
      have hredux : (match some b with
          | some bb => hist.set i ⟨bb.files, true⟩
          | none => hist) = hist.set i ⟨b.files, true⟩ := rfl
      rw [hredux]
      have hlt : i < hist.length := by
        rcases List.getElem?_eq_some.mp hget with ⟨h, -⟩
        exact h
      have hset : (hist.set i ⟨b.files, true⟩)[i]? = some ⟨b.files, true⟩ :=
        List.getElem?_set_self hlt
      by_cases hr : i ∈ rest
      · exact @ih ⟨b.files, true⟩ (hist.set i ⟨b.files, true⟩) hr hset
      · rw [markChecked_get_notMem _ hr, hset]
    · have hr : i ∈ rest := (List.mem_cons.mp hmem).resolve_left hij
      cases hj : hist[j]? with
      | none => exact @ih b hist hr hget
      | some bj =>
        refine @ih b (hist.set j ⟨bj.files, true⟩) hr ?_
        rw [List.getElem?_set_ne (fun e => hij e.symm)]
        exact hget

/-! ## Claim theorems: C3, C7, C9 -/

/-- C3: for every batch of rename operations that all execute successfully
(no errors, no conflicts; each operation naming its source by its on-disk
spelling), running the batch through the rename worker and then running the
undo batch — built by swapping `old_path` and `new_path` of each recorded
success and iterating the batch's file list in reverse order, as
`undo_last_rename` does — restores every affected file to its original path
and name: the final filesystem state is observationally identical to the
initial one. -/
theorem c3_undo_roundtrip (ops : List Op) (σ : FState)
    (hexact : exactRun ops σ = true)
    (herr : (runOps ops σ).errors = [])
    (hconf : (runOps ops σ).conflicts = []) :
    lookupEquiv
      (undo_last_rename (runOps ops σ).final
        [⟨(runOps ops σ).successes, false⟩]).1 σ := by
  have hs := successes_eq_of_allOk herr hconf
  show lookupEquiv
    (runOps (undoOps (runOps ops σ).successes) (runOps ops σ).final).final σ
  rw [hs]
  exact roundtripAux ops σ hexact herr hconf

/-- Witness for C3 at a two-operation chain `b.txt → c.txt`, `a.txt → b.txt`
over a filesystem holding `a.txt` and `b.txt`. -/
theorem c3_undo_roundtrip_witness :
    exactRun [⟨"/d/b.txt", "/d/c.txt"⟩, ⟨"/d/a.txt", "/d/b.txt"⟩]
        [("/d/a.txt", 0), ("/d/b.txt", 1)] = true ∧
    (runOps [⟨"/d/b.txt", "/d/c.txt"⟩, ⟨"/d/a.txt", "/d/b.txt"⟩]
        [("/d/a.txt", 0), ("/d/b.txt", 1)]).errors = [] ∧
    (runOps [⟨"/d/b.txt", "/d/c.txt"⟩, ⟨"/d/a.txt", "/d/b.txt"⟩]
        [("/d/a.txt", 0), ("/d/b.txt", 1)]).conflicts = [] ∧
    lookupEquiv
      (undo_last_rename
        (runOps [⟨"/d/b.txt", "/d/c.txt"⟩, ⟨"/d/a.txt", "/d/b.txt"⟩]
          [("/d/a.txt", 0), ("/d/b.txt", 1)]).final
        [⟨(runOps [⟨"/d/b.txt", "/d/c.txt"⟩, ⟨"/d/a.txt", "/d/b.txt"⟩]
            [("/d/a.txt", 0), ("/d/b.txt", 1)]).successes, false⟩]).1
      [("/d/a.txt", 0), ("/d/b.txt", 1)] :=
  ⟨rfl, rfl, rfl, c3_undo_roundtrip _ _ rfl rfl rfl⟩

/-- C7: every operation handed to the worker is classified independently and
exactly once (the three result lists partition the batch, so the worker
always finishes with the triple and one failure never aborts the rest);
successes append the original operations in order (a sublist of the input);
a case-only path change is never classified as a conflict; an occupied,
distinct destination yields a conflict message and no rename attempt (state
unchanged); a success means the filesystem rename was performed; any
non-success leaves the state unchanged. -/
theorem c7_worker_classification (ops : List Op) (σ : FState) (op : Op) :
    ((runOps ops σ).successes.length + (runOps ops σ).errors.length +
        (runOps ops σ).conflicts.length = ops.length) ∧
    (runOps ops σ).successes.Sublist ops ∧
    (isCaseOnly op.old_path op.new_path = true →
      isConflictRes (runOp σ op).1 = false) ∧
    (isCaseOnly op.old_path op.new_path = false →
      fsExistsP σ op.new_path = true → op.new_path ≠ op.old_path →
      runOp σ op =
        (OpResult.conflictMsg ("Conflict: " ++ op.new_path ++
          " already exists"), σ)) ∧
    ((runOp σ op).1 = OpResult.success →
      fsRename σ op.old_path op.new_path = some (runOp σ op).2) ∧
    ((runOp σ op).1 ≠ OpResult.success → (runOp σ op).2 = σ) :=
  ⟨runOps_length ops σ, runOps_successes_sublist ops σ,
   runOp_caseOnly_not_conflict σ op, runOp_dest_occupied σ op,
   fun h => runOp_success_rename h, fun h => runOp_not_success_state h⟩

/-- Witness for C7: a case-only rename, an occupied-destination conflict and
a missing-source failure over a concrete two-file state. -/
theorem c7_worker_classification_witness :
    ((runOps [⟨"/d/A.txt", "/d/a.txt"⟩, ⟨"/d/A.txt", "/d/b.txt"⟩,
        ⟨"/d/missing.txt", "/d/z.txt"⟩]
        [("/d/A.txt", 0), ("/d/b.txt", 1)]).successes.length +
      (runOps [⟨"/d/A.txt", "/d/a.txt"⟩, ⟨"/d/A.txt", "/d/b.txt"⟩,
        ⟨"/d/missing.txt", "/d/z.txt"⟩]
        [("/d/A.txt", 0), ("/d/b.txt", 1)]).errors.length +
      (runOps [⟨"/d/A.txt", "/d/a.txt"⟩, ⟨"/d/A.txt", "/d/b.txt"⟩,
        ⟨"/d/missing.txt", "/d/z.txt"⟩]
        [("/d/A.txt", 0), ("/d/b.txt", 1)]).conflicts.length = 3) ∧
    isCaseOnly "/d/A.txt" "/d/a.txt" = true ∧
    isConflictRes
      (runOp [("/d/A.txt", 0), ("/d/b.txt", 1)]
        ⟨"/d/A.txt", "/d/a.txt"⟩).1 = false ∧
    runOp [("/d/A.txt", 0), ("/d/b.txt", 1)] ⟨"/d/A.txt", "/d/b.txt"⟩ =
      (OpResult.conflictMsg "Conflict: /d/b.txt already exists",
        [("/d/A.txt", 0), ("/d/b.txt", 1)]) ∧
    (runOp [("/d/A.txt", 0), ("/d/b.txt", 1)]
      ⟨"/d/missing.txt", "/d/z.txt"⟩).2 = [("/d/A.txt", 0), ("/d/b.txt", 1)] := by
  refine ⟨(c7_worker_classification
      [⟨"/d/A.txt", "/d/a.txt"⟩, ⟨"/d/A.txt", "/d/b.txt"⟩,
        ⟨"/d/missing.txt", "/d/z.txt"⟩]
      [("/d/A.txt", 0), ("/d/b.txt", 1)] ⟨"/d/A.txt", "/d/a.txt"⟩).1,
    rfl,
    (c7_worker_classification [] [("/d/A.txt", 0), ("/d/b.txt", 1)]
      ⟨"/d/A.txt", "/d/a.txt"⟩).2.2.1 rfl,
    ?_,
    (c7_worker_classification [] [("/d/A.txt", 0), ("/d/b.txt", 1)]
      ⟨"/d/missing.txt", "/d/z.txt"⟩).2.2.2.2.2 (by decide)⟩
  have h := (c7_worker_classification [] [("/d/A.txt", 0), ("/d/b.txt", 1)]
      ⟨"/d/A.txt", "/d/b.txt"⟩).2.2.2.1 rfl rfl (by decide)
  exact h

/-- C9: once the undo worker's batch finishes, the targeted history batch's
`undone` flag is set to true, with its file list untouched, regardless of
how many individual undo operations failed or conflicted (the state `σ` is
universally quantified, covering arbitrary failure outcomes); in the
selected-subset variant, every checked in-range batch is flagged; `undone`
is the per-batch boolean of the batch record, never recorded per file. -/
theorem c9_undone_flag (σ : FState) (hist : List Batch)
    (checked : List Nat) (i : Nat) (b : Batch) :
    (findLastActive hist = some i → hist[i]? = some b →
      (undo_last_rename σ hist).2 = hist.set i ⟨b.files, true⟩) ∧
    (checked.isEmpty = false → (gatherOps hist checked).isEmpty = false →
      i ∈ checked → hist[i]? = some b →
      ((undo_selected_history σ hist checked).2)[i]? =
        some ⟨b.files, true⟩) := by
  constructor
  · intro hfind hget
    simp only [undo_last_rename, hfind, hget]
  · intro hne hops hmem hget
    unfold undo_selected_history
    rw [hne]
    simp only [Bool.false_eq_true, if_false]
    rw [hops]
    simp only [Bool.false_eq_true, if_false]
    exact markChecked_get_mem hist hmem hget

/-- Witness for C9: a one-batch history undone against an empty filesystem,
so the single undo operation fails, yet the batch is flagged undone (in both
variants). -/
theorem c9_undone_flag_witness :
    (findLastActive [⟨[⟨"/d/a.txt", "/d/b.txt"⟩], false⟩] = some 0) ∧
    (undo_last_rename [] [⟨[⟨"/d/a.txt", "/d/b.txt"⟩], false⟩]).2 =
      [⟨[⟨"/d/a.txt", "/d/b.txt"⟩], true⟩] ∧
    (runOps (undoOps [⟨"/d/a.txt", "/d/b.txt"⟩]) []).errors ≠ [] ∧
    ((undo_selected_history [] [⟨[⟨"/d/a.txt", "/d/b.txt"⟩], false⟩]
        [0]).2)[0]? = some ⟨[⟨"/d/a.txt", "/d/b.txt"⟩], true⟩ := by
  refine ⟨rfl, ?_, by decide, ?_⟩
  · exact (c9_undone_flag [] [⟨[⟨"/d/a.txt", "/d/b.txt"⟩], false⟩] [0] 0
      ⟨[⟨"/d/a.txt", "/d/b.txt"⟩], false⟩).1 rfl rfl
  · exact (c9_undone_flag [] [⟨[⟨"/d/a.txt", "/d/b.txt"⟩], false⟩] [0] 0
      ⟨[⟨"/d/a.txt", "/d/b.txt"⟩], false⟩).2 rfl rfl (by decide) rfl

/-! ## Preview-engine lemmas -/

lemma one_lt_length_of_two_mem {α} {l : List α} {a b : α}
    (ha : a ∈ l) (hb : b ∈ l) (hab : a ≠ b) : 1 < l.length := by
  cases l with
  | nil => cases ha
  | cons x rest =>
    cases rest with
    | nil =>
      rw [List.mem_singleton] at ha hb
      exact absurd (ha.trans hb.symm) hab
    | cons y r2 =>
      simp only [List.length_cons]
      omega

lemma mem_plannedNormGroup {pairs : List (String × String)} {p n : String}
    (h : (p, n) ∈ pairs) {k : String} (hk : normcase n = k) :
    p ∈ plannedNormGroup pairs k := by
  unfold plannedNormGroup
  exact List.mem_map.mpr ⟨(p, n), List.mem_filter.mpr ⟨h, by simp [hk]⟩, rfl⟩

lemma row_mem (fs : FS) (cfg : Config) (paths : List String) {p n : String}
    (h : (p, n) ∈ previewPairs fs cfg paths) :
    (basename p, n, rowStatus fs cfg (previewPairs fs cfg paths) p n, p) ∈
      (generate_preview fs cfg paths).1 :=
  List.mem_map_of_mem _ h

/-- Status evaluation for a genuine normalized-name collision between
distinct files. -/
lemma rowStatus_conflict_of (fs : FS) (cfg : Config)
    (pairs : List (String × String)) (fpath n : String)
    (h1 : normcase (basename fpath) ≠ normcase n)
    (h2 : (cfg.extension_lock && _detect_extension_change (basename fpath) n)
      = false)
    (h3 : 1 < (plannedNormGroup pairs (normcase n)).length)
    (h4 : 1 <
      ((plannedNormGroup pairs (normcase n)).map fs.realpath).dedup.length) :
    rowStatus fs cfg pairs fpath n = "Conflict" := by
  have hob : ¬ ((normcase (basename fpath) == normcase n &&
      basename fpath != n) = true) := by
    simp only [Bool.and_eq_true, beq_iff_eq, bne_iff_ne]
    exact fun hb => h1 hb.1
  have hoe : ¬ ((basename fpath == n) = true) := by
    simp only [beq_iff_eq]
    exact fun hb => h1 (congrArg normcase hb)
  have hx : ¬ ((cfg.extension_lock &&
      _detect_extension_change (basename fpath) n) = true) := by
    rw [h2]; simp
  have hlen : ¬ (((plannedNormGroup pairs (normcase n)).map
      fs.realpath).dedup.length == 1 &&
      ((plannedNormGroup pairs (normcase n)).map
        fs.realpath).dedup.contains (fs.realpath fpath)) = true := by
    simp only [Bool.and_eq_true, beq_iff_eq]
    rintro ⟨hl, -⟩
    omega
  simp only [rowStatus]
  rw [if_neg hob, if_neg hoe, if_neg hx, if_pos h3, if_neg hlen]

/-- Status evaluation for the swap-chain branch: the destination exists and
is occupied by a distinct file that this batch moves elsewhere. -/
lemma rowStatus_ready_swap (fs : FS) (cfg : Config)
    (pairs : List (String × String)) (fpath n v : String)
    (h1 : normcase (basename fpath) ≠ normcase n)
    (h2 : (cfg.extension_lock && _detect_extension_change (basename fpath) n)
      = false)
    (h3 : ¬ 1 < (plannedNormGroup pairs (normcase n)).length)
    (h4 : fs.pathExists (pathJoin (dirname fpath) n) = true)
    (h5 : normcase (pathJoin (dirname fpath) n) ≠ normcase fpath)
    (h6 : fs.realpath (pathJoin (dirname fpath) n) ≠ fs.realpath fpath)
    (h7 : swapChainLookup pairs (normcase (pathJoin (dirname fpath) n)) =
      some v)
    (h8 : v ≠ normcase (pathJoin (dirname fpath) n)) :
    rowStatus fs cfg pairs fpath n = "Ready" := by
  have hob : ¬ ((normcase (basename fpath) == normcase n &&
      basename fpath != n) = true) := by
    simp only [Bool.and_eq_true, beq_iff_eq, bne_iff_ne]
    exact fun hb => h1 hb.1
  have hoe : ¬ ((basename fpath == n) = true) := by
    simp only [beq_iff_eq]
    exact fun hb => h1 (congrArg normcase hb)
  have hx : ¬ ((cfg.extension_lock &&
      _detect_extension_change (basename fpath) n) = true) := by
    rw [h2]; simp
  have hcond : (fs.pathExists (pathJoin (dirname fpath) n) &&
      normcase (pathJoin (dirname fpath) n) != normcase fpath) = true := by
    simp [h4, h5]
  have hsame : ¬ ((fs.realpath (pathJoin (dirname fpath) n) ==
      fs.realpath fpath) = true) := by
    simp only [beq_iff_eq]
    exact h6
  simp only [rowStatus]
  rw [if_neg hob, if_neg hoe, if_neg hx, if_neg h3, if_pos hcond,
    if_neg hsame, h7]
  show (if (v != normcase (pathJoin (dirname fpath) n)) = true then "Ready"
    else "Conflict") = "Ready"
  rw [if_pos (by simpa using h8)]

/-- Status evaluation for the plain Ready case: no collision, destination
free (or equal to the source up to case with nothing occupying it). -/
lemma rowStatus_ready_free (fs : FS) (cfg : Config)
    (pairs : List (String × String)) (fpath n : String)
    (h1 : normcase (basename fpath) ≠ normcase n)
    (h2 : (cfg.extension_lock && _detect_extension_change (basename fpath) n)
      = false)
    (h3 : ¬ 1 < (plannedNormGroup pairs (normcase n)).length)
    (h4 : (fs.pathExists (pathJoin (dirname fpath) n) &&
      normcase (pathJoin (dirname fpath) n) != normcase fpath) = false) :
    rowStatus fs cfg pairs fpath n = "Ready" := by
  have hob : ¬ ((normcase (basename fpath) == normcase n &&
      basename fpath != n) = true) := by
    simp only [Bool.and_eq_true, beq_iff_eq, bne_iff_ne]
    exact fun hb => h1 hb.1
  have hoe : ¬ ((basename fpath == n) = true) := by
    simp only [beq_iff_eq]
    exact fun hb => h1 (congrArg normcase hb)
  have hx : ¬ ((cfg.extension_lock &&
      _detect_extension_change (basename fpath) n) = true) := by
    rw [h2]; simp
  simp only [rowStatus]
  rw [if_neg hob, if_neg hoe, if_neg hx, if_neg h3, if_neg (by rw [h4]; simp)]

/-! ## Claim C1 -/

/-- C1 (amended): if two distinct source files (distinct `realpath`s) in the
batch receive identical case-normalized planned names, then both of their
preview rows get status `Conflict`, provided neither row is preempted by an
earlier branch of the classifier: each file's planned name must differ from
its current name even after case normalization, and the extension-lock check
must not fire for it. (As originally stated — without the preemption
provisos — the claim is refuted by `c1_counterexample`.) -/
theorem c1_collision_conflict (fs : FS) (cfg : Config) (paths : List String)
    (pA pB nA nB : String)
    (hA : (pA, nA) ∈ previewPairs fs cfg paths)
    (hB : (pB, nB) ∈ previewPairs fs cfg paths)
    (hreal : fs.realpath pA ≠ fs.realpath pB)
    (hcoll : normcase nA = normcase nB)
    (hselfA : normcase (basename pA) ≠ normcase nA)
    (hselfB : normcase (basename pB) ≠ normcase nB)
    (hlockA : (cfg.extension_lock &&
      _detect_extension_change (basename pA) nA) = false)
    (hlockB : (cfg.extension_lock &&
      _detect_extension_change (basename pB) nB) = false) :
    (basename pA, nA, "Conflict", pA) ∈ (generate_preview fs cfg paths).1 ∧
    (basename pB, nB, "Conflict", pB) ∈ (generate_preview fs cfg paths).1 := by
  have hpne : pA ≠ pB := fun e => hreal (congrArg fs.realpath e)
  have hmemA : pA ∈ plannedNormGroup (previewPairs fs cfg paths) (normcase nA) :=
    mem_plannedNormGroup hA rfl
  have hmemB : pB ∈ plannedNormGroup (previewPairs fs cfg paths) (normcase nA) :=
    mem_plannedNormGroup hB hcoll.symm
  have hlen : 1 <
      (plannedNormGroup (previewPairs fs cfg paths) (normcase nA)).length :=
    one_lt_length_of_two_mem hmemA hmemB hpne
  have hdedup : ∀ k, k = normcase nA → 1 <
      ((plannedNormGroup (previewPairs fs cfg paths) k).map
        fs.realpath).dedup.length := by
    intro k hk
    subst hk
    apply one_lt_length_of_two_mem (a := fs.realpath pA) (b := fs.realpath pB)
    · exact List.mem_dedup.mpr (List.mem_map_of_mem fs.realpath hmemA)
    · exact List.mem_dedup.mpr (List.mem_map_of_mem fs.realpath hmemB)
    · exact hreal
  have hsA : rowStatus fs cfg (previewPairs fs cfg paths) pA nA = "Conflict" :=
    rowStatus_conflict_of fs cfg _ pA nA hselfA hlockA hlen (hdedup _ rfl)
  have hsB : rowStatus fs cfg (previewPairs fs cfg paths) pB nB = "Conflict" :=
    rowStatus_conflict_of fs cfg _ pB nB hselfB hlockB (hcoll ▸ hlen)
      (hdedup _ hcoll.symm)
  constructor
  · have := row_mem fs cfg paths hA
    rw [hsA] at this
    exact this
  · have := row_mem fs cfg paths hB
    rw [hsB] at this
    exact this

/-- Counterexample to C1 as stated: with `base_name = "same"` over the files
`/d/same.txt` and `/d/y.txt` (distinct realpaths, identical case-normalized
planned name `same.txt`, neither a case-only rename of the other), the first
file's row is classified `No Change`, not `Conflict` — the No-Change branch
preempts the collision branch. -/
theorem c1_counterexample :
    (generate_preview
      ⟨fun p => p == "/d/same.txt" || p == "/d/y.txt",
        fun _ => 0, fun _ => 0, fun p => p⟩
      { base_name := "same" } ["/d/same.txt", "/d/y.txt"]).1 =
      [("same.txt", "same.txt", "No Change", "/d/same.txt"),
       ("y.txt", "same.txt", "Conflict", "/d/y.txt")] ∧
    normcase "same.txt" = normcase "same.txt" ∧
    ("/d/same.txt" : String) ≠ "/d/y.txt" := by
  refine ⟨?_, rfl, by decide⟩
  rfl

/-- Witness for C1 at `base_name = "same"` over `/d/x.txt` and `/d/y.txt`. -/
theorem c1_collision_conflict_witness :
    ("x.txt", "same.txt", "Conflict", "/d/x.txt") ∈
      (generate_preview
        ⟨fun p => p == "/d/x.txt" || p == "/d/y.txt",
          fun _ => 0, fun _ => 0, fun p => p⟩
        { base_name := "same" } ["/d/x.txt", "/d/y.txt"]).1 ∧
    ("y.txt", "same.txt", "Conflict", "/d/y.txt") ∈
      (generate_preview
        ⟨fun p => p == "/d/x.txt" || p == "/d/y.txt",
          fun _ => 0, fun _ => 0, fun p => p⟩
        { base_name := "same" } ["/d/x.txt", "/d/y.txt"]).1 := by
  have h := c1_collision_conflict
    ⟨fun p => p == "/d/x.txt" || p == "/d/y.txt",
      fun _ => 0, fun _ => 0, fun p => p⟩
    { base_name := "same" } ["/d/x.txt", "/d/y.txt"]
    "/d/x.txt" "/d/y.txt" "same.txt" "same.txt"
    (by decide) (by decide) (by decide) rfl (by decide) (by decide) rfl rfl
  exact h

/-! ## Claim C4 -/

lemma rawPass_get? (cfg : Config) (l : List String) (cnt : Int) (i : Nat) :
    (rawPass cfg l cnt)[i]? = (l[i]?).map (fun f =>
      rawNewName cfg (cnt + (if cfg.start_num.isSome then (i : Int) else 0))
        f) := by
  induction l generalizing cnt i with
  | nil => simp [rawPass]
  | cons f rest ih =>
    cases i with
    | zero =>
      simp only [rawPass, List.getElem?_cons_zero, Option.map_some]
      split <;> simp
    | succ j =>
      simp only [rawPass, List.getElem?_cons_succ, ih]
      by_cases hs : cfg.start_num.isSome
      · simp only [hs, if_true]
        have : cnt + 1 + (j : Int) = cnt + ((j : Int) + 1) := by ring
        rw [this]
        push_cast
        ring_nf
      · simp [hs]

lemma previewPass_get? (cfg : Config) (l : List String) (cnt : Int) (i : Nat) :
    (previewPass cfg l cnt)[i]? = (l[i]?).map (fun f =>
      (f, builtName cfg
        (cnt + (if cfg.start_num.isSome then (i : Int) else 0)) f)) := by
  induction l generalizing cnt i with
  | nil => simp [previewPass]
  | cons f rest ih =>
    cases i with
    | zero =>
      simp only [previewPass, List.getElem?_cons_zero, Option.map_some]
      split <;> simp
    | succ j =>
      simp only [previewPass, List.getElem?_cons_succ, ih]
      by_cases hs : cfg.start_num.isSome
      · simp only [hs, if_true]
        have : cnt + 1 + (j : Int) = cnt + ((j : Int) + 1) := by ring
        rw [this]
        push_cast
        ring_nf
      · simp [hs]

lemma clampedStart_eq_max {cfg : Config} {n : Int}
    (hs : cfg.start_num = some n) : clampedStart cfg = max n 1 := by
  unfold clampedStart
  rw [hs]
  show (if n < 1 then 1 else n) = max n 1
  by_cases h : n < 1
  · rw [if_pos h, max_eq_right (le_of_lt h)]
  · rw [if_neg h, max_eq_left (le_of_not_lt h)]

/-- C4: the planned new name of the `i`-th filtered file (0-based), before
any cleanup transform, is
`prefix ++ name_body ++ number_part ++ suffix ++ original extension`, where
`name_body` is `base_name` when non-empty and otherwise the file's stem, and
`number_part` is `"_" ++ (max(start_num, 1) + i)` when `start_num` is set
(clamping values below 1 to 1) and empty otherwise; the planning pass pairs
the file with this name after cleanup/fallback postprocessing
(`builtName`). -/
theorem c4_naming_formula (fs : FS) (cfg : Config) (paths : List String)
    (i : Nat) (f : String)
    (hf : (filteredFiles fs cfg paths)[i]? = some f) :
    (rawPass cfg (filteredFiles fs cfg paths) (clampedStart cfg))[i]? =
      some (cfg.pre ++
        (if cfg.base_name ≠ "" then cfg.base_name
         else splitextBase (basename f)) ++
        (match cfg.start_num with
         | some n => "_" ++ toString (max n 1 + (i : Int))
         | none => "") ++
        cfg.suffix ++ splitextExt f) ∧
    (previewPairs fs cfg paths)[i]? =
      some (f, builtName cfg
        (clampedStart cfg +
          (if cfg.start_num.isSome then (i : Int) else 0)) f) := by
  have hbody : (if (cfg.base_name != "") = true then cfg.base_name
      else splitextBase (basename f)) =
      (if cfg.base_name ≠ "" then cfg.base_name
       else splitextBase (basename f)) := by
    by_cases hb : cfg.base_name = "" <;> simp [hb]
  constructor
  · rw [rawPass_get?, hf]
    refine congrArg some ?_
    unfold rawNewName
    cases hs : cfg.start_num with
    | none =>
      simp only [hs, Option.isSome_none, Bool.false_eq_true, if_false]
      rw [hbody]
    | some n =>
      have hcl : clampedStart cfg = max n 1 := clampedStart_eq_max hs
      simp only [hs, Option.isSome_some, if_true, hcl]
      rw [hbody]
  · show (previewPass cfg (filteredFiles fs cfg paths) (clampedStart cfg))[i]?
      = _
    rw [previewPass_get?, hf]
    rfl

/-- Witness for C4 at Example 3: `base_name = "item"`, `start_num = 1` over
`/d/x.txt` and `/d/y.txt` yields `item_1.txt` and `item_2.txt`, both rows
Ready. -/
theorem c4_naming_formula_witness :
    (rawPass { base_name := "item", start_num := some 1 }
      (filteredFiles
        ⟨fun p => p == "/d/x.txt" || p == "/d/y.txt",
          fun _ => 0, fun _ => 0, fun p => p⟩
        { base_name := "item", start_num := some 1 }
        ["/d/x.txt", "/d/y.txt"])
      (clampedStart { base_name := "item", start_num := some 1 }))[0]? =
      some "item_1.txt" ∧
    (rawPass { base_name := "item", start_num := some 1 }
      (filteredFiles
        ⟨fun p => p == "/d/x.txt" || p == "/d/y.txt",
          fun _ => 0, fun _ => 0, fun p => p⟩
        { base_name := "item", start_num := some 1 }
        ["/d/x.txt", "/d/y.txt"])
      (clampedStart { base_name := "item", start_num := some 1 }))[1]? =
      some "item_2.txt" ∧
    (generate_preview
      ⟨fun p => p == "/d/x.txt" || p == "/d/y.txt",
        fun _ => 0, fun _ => 0, fun p => p⟩
      { base_name := "item", start_num := some 1 }
      ["/d/x.txt", "/d/y.txt"]).1 =
      [("x.txt", "item_1.txt", "Ready", "/d/x.txt"),
       ("y.txt", "item_2.txt", "Ready", "/d/y.txt")] := by
  refine ⟨?_, ?_, rfl⟩
  · have h := (c4_naming_formula
      ⟨fun p => p == "/d/x.txt" || p == "/d/y.txt",
        fun _ => 0, fun _ => 0, fun p => p⟩
      { base_name := "item", start_num := some 1 }
      ["/d/x.txt", "/d/y.txt"] 0 "/d/x.txt" rfl).1
    exact h.trans (by decide)
  · have h := (c4_naming_formula
      ⟨fun p => p == "/d/x.txt" || p == "/d/y.txt",
        fun _ => 0, fun _ => 0, fun p => p⟩
      { base_name := "item", start_num := some 1 }
      ["/d/x.txt", "/d/y.txt"] 1 "/d/y.txt" rfl).1
    exact h.trans (by decide)

/-! ## Claim C8 -/

/-- C8 (amended): with a non-empty extensions filter (and no size/date
filters), the filtering pass keeps an existing file if and only if its
lowercased basename ends with `"."` followed by one of the filter entries
taken verbatim — i.e. the comparison is case-insensitive in the filename but
case-sensitive in the filter entry. (As originally stated — case-insensitive
in both — the claim is refuted by `c8_counterexample`.) -/
theorem c8_extension_filter (fs : FS) (cfg : Config) (fpath : String)
    (l : List String) (hext : cfg.extensions = some l) (hne : l ≠ [])
    (hsize : cfg.size_filter = none) (hdate : cfg.date_filter = none)
    (hex : fs.pathExists fpath = true) :
    (generate_preview fs cfg [fpath]).2 = [fpath] ↔
      ∃ e ∈ l, pyEndsWith (lowerStr (basename fpath)) ("." ++ e) = true := by
  show filteredFiles fs cfg [fpath] = [fpath] ↔ _
  have hkeep : keepFile fs cfg fpath = extFilterPass l fpath := by
    unfold keepFile
    rw [hext, hsize, hdate, hex]
    have hie : l.isEmpty = false := by
      cases l with
      | nil => exact absurd rfl hne
      | cons a r => rfl
    show (((true &&
        (if l.isEmpty = true then true else extFilterPass l fpath))
        && true) && true) = extFilterPass l fpath
    rw [hie]
    simp
  unfold filteredFiles
  rw [List.filter_cons, List.filter_nil, hkeep]
  constructor
  · intro h
    by_cases hp : extFilterPass l fpath = true
    · unfold extFilterPass at hp
      rcases List.any_eq_true.mp hp with ⟨e, he, hee⟩
      exact ⟨e, he, hee⟩
    · rw [if_neg (by simpa using hp)] at h
      exact absurd h (by simp)
  · rintro ⟨e, he, hee⟩
    have hp : extFilterPass l fpath = true :=
      List.any_eq_true.mpr ⟨e, he, hee⟩
    rw [if_pos (by simpa using hp)]

/-- Counterexample to C8 as stated: the file `/d/a.TXT` with filter entry
`"TXT"` is dropped by the filtering pass, although under a comparison that is
case-insensitive in both the filename and the entry it matches. -/
theorem c8_counterexample :
    (generate_preview
      ⟨fun p => p == "/d/a.TXT", fun _ => 0, fun _ => 0, fun p => p⟩
      { extensions := some ["TXT"] } ["/d/a.TXT"]).2 = [] ∧
    pyEndsWith (lowerStr (basename "/d/a.TXT")) ("." ++ lowerStr "TXT") =
      true :=
  ⟨rfl, rfl⟩

/-- Witness for C8: lowercase entry `"txt"` keeps `/d/a.TXT`; uppercase
entry `"TXT"` does not. -/
theorem c8_extension_filter_witness :
    ((generate_preview
      ⟨fun p => p == "/d/a.TXT", fun _ => 0, fun _ => 0, fun p => p⟩
      { extensions := some ["txt"] } ["/d/a.TXT"]).2 = ["/d/a.TXT"] ↔
      ∃ e ∈ ["txt"],
        pyEndsWith (lowerStr (basename "/d/a.TXT")) ("." ++ e) = true) ∧
    ((generate_preview
      ⟨fun p => p == "/d/a.TXT", fun _ => 0, fun _ => 0, fun p => p⟩
      { extensions := some ["TXT"] } ["/d/a.TXT"]).2 = ["/d/a.TXT"] ↔
      ∃ e ∈ ["TXT"],
        pyEndsWith (lowerStr (basename "/d/a.TXT")) ("." ++ e) = true) :=
  ⟨c8_extension_filter _ _ _ ["txt"] rfl (by decide) rfl rfl rfl,
   c8_extension_filter _ _ _ ["TXT"] rfl (by decide) rfl rfl rfl⟩

/-! ## Claim C2 -/

lemma dictUpsert_notMem (k v : String) (d : List (String × String))
    (h : ∀ e ∈ d, e.1 ≠ k) : dictUpsert k v d = d ++ [(k, v)] := by
  induction d with
  | nil => rfl
  | cons e rest ih =>
    show (if (e.1 == k) = true then (k, v) :: rest
      else e :: dictUpsert k v rest) = (e :: rest) ++ [(k, v)]
    rw [if_neg (by simpa using h e (List.mem_cons_self _ _))]
    rw [ih (fun a ha => h a (List.mem_cons_of_mem _ ha))]
    rfl

lemma oldToNewNorm_aux (pairs : List (String × String)) :
    ∀ acc : List (String × String),
    List.Pairwise (fun a b : String × String => a.1 ≠ b.1) pairs →
    (∀ pr ∈ pairs, ∀ e ∈ acc, e.1 ≠ pr.1) →
    pairs.foldl (fun d pr => dictUpsert pr.1 (plannedDest pr) d) acc =
      acc ++ pairs.map (fun pr => (pr.1, plannedDest pr)) := by
  induction pairs with
  | nil => intro acc _ _; simp
  | cons pr rest ih =>
    intro acc hpw hdisj
    rw [List.foldl_cons,
      dictUpsert_notMem _ _ _
        (fun e he => hdisj pr (List.mem_cons_self _ _) e he),
      ih (acc ++ [(pr.1, plannedDest pr)]) (List.Pairwise.of_cons hpw) ?_]
    · simp
    · intro q hq e he
      rcases List.mem_append.mp he with he | he
      · exact hdisj q (List.mem_cons_of_mem _ hq) e he
      · rw [List.mem_singleton] at he
        subst he
        exact (List.pairwise_cons.mp hpw).1 q hq

lemma oldToNewNorm_eq_map (pairs : List (String × String))
    (hpw : List.Pairwise (fun a b : String × String => a.1 ≠ b.1) pairs) :
    oldToNewNorm pairs = pairs.map (fun pr => (pr.1, plannedDest pr)) := by
  have h := oldToNewNorm_aux pairs [] hpw (by intro pr _ e he; cases he)
  simpa [oldToNewNorm] using h

lemma find?_unique {α} {l : List α} {p : α → Bool} {x : α}
    (hx : x ∈ l) (hpx : p x = true)
    (huniq : ∀ y ∈ l, p y = true → y = x) : l.find? p = some x := by
  induction l with
  | nil => cases hx
  | cons a rest ih =>
    by_cases hpa : p a = true
    · rw [List.find?_cons_of_pos _ hpa,
        huniq a (List.mem_cons_self _ _) hpa]
    · rw [List.find?_cons_of_neg _ hpa]
      have hxr : x ∈ rest := by
        rcases List.mem_cons.mp hx with h | h
        · exact absurd (h ▸ hpx) hpa
        · exact h
      exact ih hxr (fun y hy hpy => huniq y (List.mem_cons_of_mem _ hy) hpy)

lemma swapChainLookup_eq (pairs : List (String × String))
    (hpw : List.Pairwise
      (fun a b : String × String => normcase a.1 ≠ normcase b.1) pairs)
    {pB nB : String} (hmem : (pB, nB) ∈ pairs) :
    swapChainLookup pairs (normcase pB) = some (plannedDest (pB, nB)) := by
  have hraw : List.Pairwise (fun a b : String × String => a.1 ≠ b.1) pairs :=
    hpw.imp (fun h e => h (congrArg (fun q : String => normcase q) e))
  unfold swapChainLookup
  rw [oldToNewNorm_eq_map pairs hraw]
  have hfind : (pairs.map (fun pr => (pr.1, plannedDest pr))).find?
      (fun e => normcase e.1 == normcase pB) =
      some (pB, plannedDest (pB, nB)) := by
    apply find?_unique (x := ((pB, nB).1, plannedDest (pB, nB)))
    · exact List.mem_map_of_mem _ hmem
    · simp
    · rintro y hy hpy
      rcases List.mem_map.mp hy with ⟨q, hq, rfl⟩
      simp only [beq_iff_eq] at hpy
      by_cases hqe : q = (pB, nB)
      · rw [hqe]
      · have hsym : Symmetric
            (fun a b : String × String => normcase a.1 ≠ normcase b.1) :=
          fun a b h e => h e.symm
        exact absurd hpy (hpw.forall hsym hq hmem hqe)
  rw [hfind]
  rfl

/-- C2 (amended): in the mutual swap configuration — distinct files `A`, `B`
in the same directory where `A`'s planned name is `B`'s current name and
`B`'s planned name is `A`'s current name — both rows are classified `Ready`,
provided no other batch file case-collides with either path or planned name
and neither row is preempted by the No-Change/case-only/extension-lock
branches. In general, `B` merely "moving elsewhere" does not make `B`'s row
Ready: `c2_counterexample` shows `B` classified `Conflict` when its own
destination is occupied by a file outside the batch. -/
theorem c2_swap_chain_ready (fs : FS) (cfg : Config) (paths : List String)
    (pA pB nA nB : String)
    (hA : (pA, nA) ∈ previewPairs fs cfg paths)
    (hB : (pB, nB) ∈ previewPairs fs cfg paths)
    (hpw : List.Pairwise
      (fun a b : String × String => normcase a.1 ≠ normcase b.1)
      (previewPairs fs cfg paths))
    (hrealAB : fs.realpath pB ≠ fs.realpath pA)
    (hexA : fs.pathExists pA = true)
    (hexB : fs.pathExists pB = true)
    (hjoinA : pathJoin (dirname pA) nA = pB)
    (hjoinB : pathJoin (dirname pB) nB = pA)
    (hnormAB : normcase pA ≠ normcase pB)
    (hselfA : normcase (basename pA) ≠ normcase nA)
    (hselfB : normcase (basename pB) ≠ normcase nB)
    (hlockA : (cfg.extension_lock &&
      _detect_extension_change (basename pA) nA) = false)
    (hlockB : (cfg.extension_lock &&
      _detect_extension_change (basename pB) nB) = false)
    (hgrpA : ¬ 1 <
      (plannedNormGroup (previewPairs fs cfg paths) (normcase nA)).length)
    (hgrpB : ¬ 1 <
      (plannedNormGroup (previewPairs fs cfg paths) (normcase nB)).length) :
    (basename pA, nA, "Ready", pA) ∈ (generate_preview fs cfg paths).1 ∧
    (basename pB, nB, "Ready", pB) ∈ (generate_preview fs cfg paths).1 := by
  have hsA : rowStatus fs cfg (previewPairs fs cfg paths) pA nA = "Ready" := by
    apply rowStatus_ready_swap fs cfg _ pA nA (plannedDest (pB, nB)) hselfA
      hlockA hgrpA
    · rw [hjoinA]; exact hexB
    · rw [hjoinA]; exact fun e => hnormAB e.symm
    · rw [hjoinA]; exact hrealAB
    · rw [hjoinA]; exact swapChainLookup_eq _ hpw hB
    · rw [hjoinA]
      show normcase (pathJoin (dirname pB) nB) ≠ normcase pB
      rw [hjoinB]
      exact hnormAB
  have hsB : rowStatus fs cfg (previewPairs fs cfg paths) pB nB = "Ready" := by
    apply rowStatus_ready_swap fs cfg _ pB nB (plannedDest (pA, nA)) hselfB
      hlockB hgrpB
    · rw [hjoinB]; exact hexA
    · rw [hjoinB]; exact hnormAB
    · rw [hjoinB]; exact fun e => hrealAB e.symm
    · rw [hjoinB]; exact swapChainLookup_eq _ hpw hA
    · rw [hjoinB]
      show normcase (pathJoin (dirname pA) nA) ≠ normcase pA
      rw [hjoinA]
      exact fun e => hnormAB e.symm
  constructor
  · have := row_mem fs cfg paths hA
    rw [hsA] at this
    exact this
  · have := row_mem fs cfg paths hB
    rw [hsB] at this
    exact this

/-- Counterexample to C2 as stated: with `base_name = "f"`, `start_num = 1`
over the batch `[/d/a.txt, /d/f_1.txt]` and an unrelated on-disk file
`/d/f_2.txt`, file `A = /d/a.txt` is planned to `f_1.txt` (the current name
of batch member `B = /d/f_1.txt`, which occupies that destination) and `B`
is planned elsewhere (`f_2.txt`); yet `B`'s row is `Conflict`, not `Ready`,
because `B`'s own destination is occupied by the unrelated file. -/
theorem c2_counterexample :
    (generate_preview
      ⟨fun p => p == "/d/a.txt" || p == "/d/f_1.txt" || p == "/d/f_2.txt",
        fun _ => 0, fun _ => 0, fun p => p⟩
      { base_name := "f", start_num := some 1 }
      ["/d/a.txt", "/d/f_1.txt"]).1 =
      [("a.txt", "f_1.txt", "Ready", "/d/a.txt"),
       ("f_1.txt", "f_2.txt", "Conflict", "/d/f_1.txt")] ∧
    pathJoin (dirname "/d/a.txt") "f_1.txt" = "/d/f_1.txt" ∧
    ("f_2.txt" : String) ≠ "f_1.txt" := by
  exact ⟨rfl, rfl, by decide⟩

/-- Witness for C2: the pure swap `f_2.txt → f_1.txt`, `f_1.txt → f_2.txt`
produced by `base_name = "f"`, `start_num = 1` on the batch
`[/d/f_2.txt, /d/f_1.txt]`. -/
theorem c2_swap_chain_ready_witness :
    ("f_2.txt", "f_1.txt", "Ready", "/d/f_2.txt") ∈
      (generate_preview
        ⟨fun p => p == "/d/f_2.txt" || p == "/d/f_1.txt",
          fun _ => 0, fun _ => 0, fun p => p⟩
        { base_name := "f", start_num := some 1 }
        ["/d/f_2.txt", "/d/f_1.txt"]).1 ∧
    ("f_1.txt", "f_2.txt", "Ready", "/d/f_1.txt") ∈
      (generate_preview
        ⟨fun p => p == "/d/f_2.txt" || p == "/d/f_1.txt",
          fun _ => 0, fun _ => 0, fun p => p⟩
        { base_name := "f", start_num := some 1 }
        ["/d/f_2.txt", "/d/f_1.txt"]).1 := by
  exact c2_swap_chain_ready
    ⟨fun p => p == "/d/f_2.txt" || p == "/d/f_1.txt",
      fun _ => 0, fun _ => 0, fun p => p⟩
    { base_name := "f", start_num := some 1 }
    ["/d/f_2.txt", "/d/f_1.txt"]
    "/d/f_2.txt" "/d/f_1.txt" "f_1.txt" "f_2.txt"
    (by decide) (by decide) (by decide) (by decide) rfl rfl (by decide)
    (by decide) (by decide) (by decide) (by decide) rfl rfl
    (by decide) (by decide)

/-! ## Claim C6 -/

/-- Spec-side step: accent strip (NFD + drop Mn) when enabled. -/
def accentStep (o : CleanOpts) (l : List Char) : List Char :=
  if o.remove_accents then nfdStrip l else l

/-- Spec-side step: special-character strip when enabled. -/
def specialStep (o : CleanOpts) (l : List Char) : List Char :=
  if o.remove_special_chars then
    l.filter (fun c => isWordChar c || isPySpace c || c == '-' || c == '.')
  else l

/-- Spec-side step: space replacement when enabled. -/
def spaceStep (o : CleanOpts) (l : List Char) : List Char :=
  if o.replace_spaces then
    stripSet ['_'] (collapseRuns '_'
      (l.map (fun c => if c == ' ' then '_' else c)))
  else l

/-- Spec-side step: case conversion when enabled. -/
def caseStep (o : CleanOpts) (l : List Char) : List Char :=
  if o.convert_case then
    (if o.case_type = "lowercase" then l.map Char.toLower
     else if o.case_type = "UPPERCASE" then l.map Char.toUpper
     else if o.case_type = "Title Case" then titleChars l false
     else l)
  else l

/-- Spec-side step: trailing cleanup (collapse repeated dots, strip
leading/trailing dots and spaces). -/
def trailingStep (l : List Char) : List Char :=
  stripSet ['.', ' '] (collapseRuns '.' l)

/-- The fixed transform order of the spec: accent-strip →
special-char-strip → space-replace → case-convert → trailing cleanup. -/
def cleanPipeline (o : CleanOpts) (l : List Char) : List Char :=
  trailingStep (caseStep o (spaceStep o (specialStep o (accentStep o l))))

/-- Spec-side description of the cleaner: split on the last `.` into base
and extension (no `.` means no extension), run the pipeline on the base, and
reattach the extension when non-empty. -/
def cleanSpec (f : String) (o : CleanOpts) : String :=
  if f.data.contains '.' then
    let s := lastDotSuffix f.data
    let base := f.data.take (f.data.length - s.length)
    let e := s.drop 1
    if e ≠ [] then
      (⟨cleanPipeline o base⟩ : String) ++ "." ++ ((⟨e⟩ : String))
    else (⟨cleanPipeline o base⟩ : String)
  else (⟨cleanPipeline o f.data⟩ : String)

lemma cleanPipeline_nil (o : CleanOpts) : cleanPipeline o [] = [] := by
  unfold cleanPipeline accentStep specialStep spaceStep caseStep trailingStep
  cases o.remove_accents <;> cases o.remove_special_chars <;>
    cases o.replace_spaces <;> cases o.convert_case <;>
    simp [nfdStrip, stripSet, collapseRuns, titleChars]

lemma clean_filename_eq_spec (f : String) (o : CleanOpts) :
    clean_filename f o = cleanSpec f o := by
  by_cases hf : f = ""
  · subst hf
    show "" = cleanSpec "" o
    unfold cleanSpec
    rw [if_neg (by decide : ¬ ((("" : String).data.contains '.') = true))]
    rw [cleanPipeline_nil]
  · simp only [clean_filename, cleanSpec, cleanPipeline, accentStep,
      specialStep, spaceStep, caseStep, trailingStep, if_neg hf]
    by_cases hdot : f.data.contains '.' = true
    · simp only [if_pos hdot]
    · simp only [if_neg hdot, ne_eq, not_true_eq_false, if_false]

/-- C6: `clean_filename` splits on the last `.` into base and extension (no
`.` means no extension), applies the enabled transforms to the base in the
fixed order accent-strip (NFD, drop category-Mn marks), special-char-strip,
space-replace, case-convert, then trailing cleanup, and reattaches the
extension; `"résumé.txt"` with `remove_accents` yields `"resume.txt"`, and
an empty input is returned unchanged. -/
theorem c6_clean_structure :
    (∀ (f : String) (o : CleanOpts), clean_filename f o = cleanSpec f o) ∧
    clean_filename "résumé.txt" { remove_accents := true } = "resume.txt" ∧
    (∀ o : CleanOpts, clean_filename "" o = "") :=
  ⟨clean_filename_eq_spec, by decide, fun o => rfl⟩

/-! ## splitext shape lemmas (for C5 and C10) -/

lemma contains_eq_decide_mem (l : List Char) (c : Char) :
    l.contains c = decide (c ∈ l) := List.elem_eq_mem c l

lemma contains_false_iff {l : List Char} {c : Char} :
    l.contains c = false ↔ c ∉ l := by
  rw [contains_eq_decide_mem]
  simp

lemma contains_true_iff {l : List Char} {c : Char} :
    l.contains c = true ↔ c ∈ l := by
  rw [contains_eq_decide_mem]
  simp

lemma afterLastSlash_cons (c : Char) (rest : List Char) :
    afterLastSlash (c :: rest) =
      if rest.contains '/' = true then afterLastSlash rest
      else if (c == '/') = true then rest else c :: rest := rfl

lemma lastDotSuffix_cons (c : Char) (rest : List Char) :
    lastDotSuffix (c :: rest) =
      if rest.contains '.' = true then lastDotSuffix rest
      else if (c == '.') = true then c :: rest else [] := rfl

lemma afterLastSlash_of_noSlash {l : List Char}
    (h : l.contains '/' = false) : afterLastSlash l = l := by
  induction l with
  | nil => rfl
  | cons c rest ih =>
    rw [List.contains_cons, Bool.or_eq_false_iff] at h
    rw [afterLastSlash_cons, if_neg (by rw [h.2]; simp), if_neg ?_]
    intro hc
    rw [beq_iff_eq] at hc
    rw [hc] at h
    simpa using h.1
    -- the remaining goal is closed by the structure above

lemma afterLastSlash_noSlash (l : List Char) :
    (afterLastSlash l).contains '/' = false := by
  induction l with
  | nil => rfl
  | cons c rest ih =>
    rw [afterLastSlash_cons]
    by_cases h : rest.contains '/' = true
    · rw [if_pos h]; exact ih
    · have hr : rest.contains '/' = false := by simpa using h
      rw [if_neg h]
      by_cases hc : (c == '/') = true
      · rw [if_pos hc]; exact hr
      · rw [if_neg hc, List.contains_cons, Bool.or_eq_false_iff]
        refine ⟨?_, hr⟩
        have hne : c ≠ '/' := by
          intro e
          exact hc (by rw [e]; simp)
        exact beq_eq_false_iff_ne.mpr (fun e => hne e.symm)

lemma afterLastSlash_idem (l : List Char) :
    afterLastSlash (afterLastSlash l) = afterLastSlash l :=
  afterLastSlash_of_noSlash (afterLastSlash_noSlash l)

lemma contains_append_chars (u v : List Char) (c : Char) :
    (u ++ v).contains c = (u.contains c || v.contains c) := by
  rw [contains_eq_decide_mem, contains_eq_decide_mem, contains_eq_decide_mem]
  by_cases h : c ∈ u ++ v
  · rcases List.mem_append.mp h with h1 | h1 <;> simp [h, h1]
  · have h1 : c ∉ u := fun hm => h (List.mem_append_left _ hm)
    have h2 : c ∉ v := fun hm => h (List.mem_append_right _ hm)
    simp [h, h1, h2]

lemma afterLastSlash_append {u v : List Char}
    (hv : v.contains '/' = false) :
    afterLastSlash (u ++ v) = afterLastSlash u ++ v := by
  induction u with
  | nil =>
    rw [List.nil_append, afterLastSlash_of_noSlash hv]
    rfl
  | cons c u' ih =>
    have hc : (u' ++ v).contains '/' = u'.contains '/' := by
      rw [contains_append_chars, hv, Bool.or_false]
    rw [List.cons_append, afterLastSlash_cons, afterLastSlash_cons, hc]
    by_cases h : u'.contains '/' = true
    · rw [if_pos h, if_pos h, ih]
    · rw [if_neg h, if_neg h]
      by_cases hcs : (c == '/') = true
      · rw [if_pos hcs, if_pos hcs]
      · rw [if_neg hcs, if_neg hcs, List.cons_append]

lemma lastDotSuffix_append_dot {u E : List Char}
    (hE : E.contains '.' = false) :
    lastDotSuffix (u ++ '.' :: E) = '.' :: E := by
  induction u with
  | nil =>
    rw [List.nil_append, lastDotSuffix_cons, if_neg (by rw [hE]; simp),
      if_pos (by simp)]
  | cons c u' ih =>
    rw [List.cons_append, lastDotSuffix_cons,
      if_pos (contains_true_iff.mpr
        (List.mem_append_right _ (List.mem_cons_self _ _))), ih]

lemma lastDotSuffix_shape (l : List Char) :
    lastDotSuffix l = [] ∨
    ∃ E, lastDotSuffix l = '.' :: E ∧ E.contains '.' = false := by
  induction l with
  | nil => exact Or.inl rfl
  | cons c rest ih =>
    rw [lastDotSuffix_cons]
    by_cases h : rest.contains '.' = true
    · rw [if_pos h]; exact ih
    · rw [if_neg h]
      by_cases hc : (c == '.') = true
      · rw [if_pos hc]
        rw [beq_iff_eq] at hc
        subst hc
        exact Or.inr ⟨rest, rfl, by simpa using h⟩
      · rw [if_neg hc]; exact Or.inl rfl

lemma lastDotSuffix_suffix (l : List Char) :
    ∃ u, l = u ++ lastDotSuffix l := by
  induction l with
  | nil => exact ⟨[], rfl⟩
  | cons c rest ih =>
    rw [lastDotSuffix_cons]
    by_cases h : rest.contains '.' = true
    · rw [if_pos h]
      rcases ih with ⟨u, hu⟩
      exact ⟨c :: u, by rw [List.cons_append, ← hu]⟩
    · rw [if_neg h]
      by_cases hc : (c == '.') = true
      · rw [if_pos hc]; exact ⟨[], rfl⟩
      · rw [if_neg hc]; exact ⟨c :: rest, by simp⟩

lemma dropWhile_eq_self_of_not_contains {l : List Char} {c : Char}
    (h : l.contains c = false) : l.dropWhile (· == c) = l := by
  cases l with
  | nil => rfl
  | cons a rest =>
    rw [List.contains_cons, Bool.or_eq_false_iff] at h
    rw [List.dropWhile_cons, if_neg ?_]
    intro ha
    rw [beq_iff_eq] at ha
    rw [ha] at h
    simpa using h.1

lemma extAfterSlash_def (b : List Char) :
    extAfterSlash b =
      if (b.dropWhile (· == '.')).contains '.' = true then
        lastDotSuffix (b.dropWhile (· == '.'))
      else [] := rfl

lemma extAfterSlash_append_dot {t E : List Char}
    (hE : E.contains '.' = false) :
    extAfterSlash (t ++ '.' :: E) =
      if t.all (· == '.') then [] else '.' :: E := by
  rw [extAfterSlash_def]
  by_cases ht : t.all (· == '.') = true
  · rw [if_pos ht]
    have hdrop : (t ++ '.' :: E).dropWhile (· == '.') = E := by
      rw [List.dropWhile_append_of_pos
        (fun a ha => List.all_eq_true.mp ht a ha)]
      rw [List.dropWhile_cons, if_pos (by simp)]
      exact dropWhile_eq_self_of_not_contains hE
    rw [hdrop, if_neg (by rw [hE]; simp)]
  · rw [if_neg ht]
    have hne : (t.dropWhile (· == '.')).isEmpty = false := by
      by_contra h
      have h1 : (t.dropWhile (· == '.')).isEmpty = true := by simpa using h
      rw [List.isEmpty_iff] at h1
      exact ht (List.all_eq_true.mpr (List.dropWhile_eq_nil_iff.mp h1))
    have hcond : ¬ (((t.dropWhile (· == '.')).isEmpty) = true) := by
      rw [hne]; simp
    have hdrop : (t ++ '.' :: E).dropWhile (· == '.') =
        t.dropWhile (· == '.') ++ '.' :: E := by
      rw [List.dropWhile_append, if_neg hcond]
    rw [hdrop]
    rw [if_pos (contains_true_iff.mpr
      (List.mem_append_right _ (List.mem_cons_self _ _)))]
    exact lastDotSuffix_append_dot hE

lemma extChars_shape (l : List Char) :
    extChars l = [] ∨
    ∃ E, extChars l = '.' :: E ∧ E.contains '.' = false ∧
      E.contains '/' = false := by
  unfold extChars
  rw [extAfterSlash_def]
  by_cases h : ((afterLastSlash l).dropWhile (· == '.')).contains '.' = true
  · rw [if_pos h]
    rcases lastDotSuffix_shape ((afterLastSlash l).dropWhile (· == '.')) with
      h0 | ⟨E, hE, hEc⟩
    · exact Or.inl h0
    · refine Or.inr ⟨E, hE, hEc, ?_⟩
      have h1 : (afterLastSlash l).contains '/' = false :=
        afterLastSlash_noSlash l
      rw [contains_false_iff] at h1 ⊢
      intro hm
      apply h1
      have hm1 : '/' ∈ lastDotSuffix
          ((afterLastSlash l).dropWhile (· == '.')) := by
        rw [hE]; exact List.mem_cons_of_mem _ hm
      rcases lastDotSuffix_suffix
          ((afterLastSlash l).dropWhile (· == '.')) with ⟨u, hu⟩
      have hm2 : '/' ∈ (afterLastSlash l).dropWhile (· == '.') := by
        rw [hu]; exact List.mem_append_right _ hm1
      exact (List.dropWhile_sublist _).subset hm2
  · rw [if_neg h]; exact Or.inl rfl

lemma splitextExt_basename (s : String) :
    splitextExt (basename s) = splitextExt s := by
  show (⟨extAfterSlash (afterLastSlash (afterLastSlash s.data))⟩ : String) = _
  rw [afterLastSlash_idem]
  rfl

/-! ## Extension preservation (C5, C10) -/

lemma str_data_append (a b : String) : (a ++ b).data = a.data ++ b.data := rfl

lemma string_data_inj {a b : String} (h : a.data = b.data) : a = b := by
  cases a
  cases b
  exact congrArg String.mk h

lemma cleanSpec_dot {f : String} {o : CleanOpts} {E : List Char}
    (hcont : f.data.contains '.' = true)
    (hs : lastDotSuffix f.data = '.' :: E)
    (hE : E ≠ []) :
    cleanSpec f o =
      (⟨cleanPipeline o
        (f.data.take (f.data.length - (E.length + 1)))⟩ : String) ++ "." ++
        (⟨E⟩ : String) := by
  unfold cleanSpec
  rw [if_pos hcont]
  show (if (lastDotSuffix f.data).drop 1 ≠ [] then
      (⟨cleanPipeline o (f.data.take
        (f.data.length - (lastDotSuffix f.data).length))⟩ : String) ++ "." ++
        (⟨(lastDotSuffix f.data).drop 1⟩ : String)
    else (⟨cleanPipeline o (f.data.take
      (f.data.length - (lastDotSuffix f.data).length))⟩ : String)) = _
  rw [hs]
  rw [if_pos (show ('.' :: E).drop 1 ≠ [] from hE)]
  rfl

lemma extChars_append_dot {X E : List Char} (hEd : E.contains '.' = false)
    (hEs : E.contains '/' = false) :
    extChars (X ++ '.' :: E) =
      if (afterLastSlash X).all (· == '.') then [] else '.' :: E := by
  unfold extChars
  have hv : ('.' :: E).contains '/' = false := by
    rw [List.contains_cons, Bool.or_eq_false_iff]
    exact ⟨by decide, hEs⟩
  rw [afterLastSlash_append hv]
  exact extAfterSlash_append_dot hEd

lemma rawNewName_data (cfg : Config) (cnt : Int) (fpath : String) :
    (rawNewName cfg cnt fpath).data =
      (cfg.pre ++ (if cfg.base_name != "" then cfg.base_name
        else splitextBase (basename fpath)) ++
       (if cfg.start_num.isSome then "_" ++ toString cnt else "") ++
       cfg.suffix).data ++ extChars fpath.data := rfl

lemma ite_cases {c : Prop} [Decidable c] {α} (a b : α) :
    (if c then a else b) = a ∨ (if c then a else b) = b := by
  by_cases h : c
  · exact Or.inl (if_pos h)
  · exact Or.inr (if_neg h)

lemma builtName_cases (cfg : Config) (cnt : Int) (fpath : String) :
    builtName cfg cnt fpath = basename fpath ∨
    builtName cfg cnt fpath =
      (if anyCleanup cfg then
        clean_filename (rawNewName cfg cnt fpath) (cleanOptsOf cfg)
       else rawNewName cfg cnt fpath) :=
  ite_cases (basename fpath)
    (if anyCleanup cfg then
      clean_filename (rawNewName cfg cnt fpath) (cleanOptsOf cfg)
     else rawNewName cfg cnt fpath)

/-- Shape of the extension token of a planned name: unchanged, empty, or in
the special case of a bare-dot original extension under cleanup, arbitrary. -/
lemma builtName_ext_shape (cfg : Config) (cnt : Int) (fpath : String) :
    splitextExt (builtName cfg cnt fpath) = splitextExt (basename fpath) ∨
    (splitextExt (builtName cfg cnt fpath)).data = [] ∨
    (anyCleanup cfg = true ∧ (splitextExt (basename fpath)).data = ['.']) ∨
    (splitextExt (basename fpath)).data = [] := by
  have hbase : (splitextExt (basename fpath)).data = extChars fpath.data := by
    rw [splitextExt_basename]
    rfl
  rcases builtName_cases cfg cnt fpath with hfb | hbn
  · rw [hfb]
    exact Or.inl rfl
  · rcases extChars_shape fpath.data with h0 | ⟨E, hx, hEd, hEs⟩
    · exact Or.inr (Or.inr (Or.inr (by rw [hbase, h0])))
    · by_cases hcl : anyCleanup cfg = true
      · cases E with
        | nil =>
          exact Or.inr (Or.inr (Or.inl ⟨hcl, by rw [hbase, hx]⟩))
        | cons e E' =>
          set E := e :: E' with hEdef
          rw [hcl, if_pos rfl] at hbn
          -- the raw name splits as S ++ '.' :: E
          have hraw : (rawNewName cfg cnt fpath).data =
              (cfg.pre ++ (if cfg.base_name != "" then cfg.base_name
                else splitextBase (basename fpath)) ++
               (if cfg.start_num.isSome then "_" ++ toString cnt else "") ++
               cfg.suffix).data ++ '.' :: E := by
            rw [rawNewName_data, hx]
          set S := (cfg.pre ++ (if cfg.base_name != "" then cfg.base_name
              else splitextBase (basename fpath)) ++
             (if cfg.start_num.isSome then "_" ++ toString cnt else "") ++
             cfg.suffix).data with hSdef
          have hcont : (rawNewName cfg cnt fpath).data.contains '.' = true := by
            rw [hraw]
            exact contains_true_iff.mpr
              (List.mem_append_right _ (List.mem_cons_self _ _))
          have hlds : lastDotSuffix (rawNewName cfg cnt fpath).data =
              '.' :: E := by
            rw [hraw]
            exact lastDotSuffix_append_dot hEd
          have htake : (rawNewName cfg cnt fpath).data.take
              ((rawNewName cfg cnt fpath).data.length - (E.length + 1)) =
              S := by
            rw [hraw]
            have hl : (S ++ '.' :: E).length - (E.length + 1) = S.length := by
              rw [List.length_append, List.length_cons]
              omega
            rw [hl]
            exact List.take_left S ('.' :: E)
          have hclean : clean_filename (rawNewName cfg cnt fpath)
              (cleanOptsOf cfg) =
              (⟨cleanPipeline (cleanOptsOf cfg) S⟩ : String) ++ "." ++
                (⟨E⟩ : String) := by
            rw [clean_filename_eq_spec]
            rw [cleanSpec_dot hcont hlds (by rw [hEdef]; simp)]
            rw [htake]
          have hndata : (builtName cfg cnt fpath).data =
              cleanPipeline (cleanOptsOf cfg) S ++ '.' :: E := by
            rw [hbn, hclean, str_data_append, str_data_append]
            show (cleanPipeline (cleanOptsOf cfg) S ++ ['.']) ++ E = _
            rw [List.append_assoc]
            rfl
          have hext : (splitextExt (builtName cfg cnt fpath)).data =
              extChars (cleanPipeline (cleanOptsOf cfg) S ++ '.' :: E) := by
            show extChars (builtName cfg cnt fpath).data = _
            rw [hndata]
          rw [extChars_append_dot hEd hEs] at hext
          by_cases hall :
              (afterLastSlash (cleanPipeline (cleanOptsOf cfg) S)).all
                (· == '.') = true
          · rw [if_pos hall] at hext
            exact Or.inr (Or.inl hext)
          · rw [if_neg hall] at hext
            refine Or.inl (string_data_inj ?_)
            rw [hext, hbase, hx]
      · have hcl' : anyCleanup cfg = false := by simpa using hcl
        rw [hcl'] at hbn
        simp only [Bool.false_eq_true, if_false] at hbn
        have hext : (splitextExt (builtName cfg cnt fpath)).data =
            extChars ((cfg.pre ++ (if cfg.base_name != "" then cfg.base_name
              else splitextBase (basename fpath)) ++
             (if cfg.start_num.isSome then "_" ++ toString cnt else "") ++
             cfg.suffix).data ++ '.' :: E) := by
          show extChars (builtName cfg cnt fpath).data = _
          rw [hbn, rawNewName_data, hx]
        rw [extChars_append_dot hEd hEs] at hext
        by_cases hall : (afterLastSlash
            (cfg.pre ++ (if cfg.base_name != "" then cfg.base_name
              else splitextBase (basename fpath)) ++
             (if cfg.start_num.isSome then "_" ++ toString cnt else "") ++
             cfg.suffix).data).all (· == '.') = true
        · rw [if_pos hall] at hext
          exact Or.inr (Or.inl hext)
        · rw [if_neg hall] at hext
          refine Or.inl (string_data_inj ?_)
          rw [hext, hbase, hx]

lemma rowStatus_ne_extLocked {fs : FS} {cfg : Config}
    {pairs : List (String × String)} {fpath n : String}
    (hdet : (cfg.extension_lock &&
      _detect_extension_change (basename fpath) n) = false) :
    rowStatus fs cfg pairs fpath n ≠ "Extension Locked" := by
  simp only [rowStatus]
  split
  · decide
  · split
    · decide
    · rw [if_neg (by rw [hdet]; simp)]
      split
      · split <;> decide
      · split
        · split
          · decide
          · split
            · split <;> decide
            · decide
        · decide

lemma rowStatus_extLocked_imp {fs : FS} {cfg : Config}
    {pairs : List (String × String)} {fpath n : String}
    (h : rowStatus fs cfg pairs fpath n = "Extension Locked") :
    (cfg.extension_lock &&
      _detect_extension_change (basename fpath) n) = true := by
  by_contra hc
  exact rowStatus_ne_extLocked (by simpa using hc) h

lemma previewPass_mem {cfg : Config} :
    ∀ {l : List String} {cnt : Int} {p n : String},
    (p, n) ∈ previewPass cfg l cnt → ∃ c : Int, n = builtName cfg c p := by
  intro l
  induction l with
  | nil => intro cnt p n h; cases h
  | cons f rest ih =>
    intro cnt p n h
    rcases List.mem_cons.mp h with h | h
    · obtain ⟨h1, h2⟩ := Prod.mk.injEq .. ▸ h
      exact ⟨cnt, by rw [h2, h1]⟩
    · exact ih h

/-- Decomposition of a preview row: its old name, planned name, status and
path all come from one planning pair. -/
lemma row_elim {fs : FS} {cfg : Config} {paths : List String}
    {o n s p : String}
    (hrow : (o, n, s, p) ∈ (generate_preview fs cfg paths).1) :
    o = basename p ∧
    (p, n) ∈ previewPairs fs cfg paths ∧
    s = rowStatus fs cfg (previewPairs fs cfg paths) p n := by
  rcases List.mem_map.mp hrow with ⟨pr, hpr, heq⟩
  have h1 : basename pr.1 = o := congrArg (fun t => t.1) heq
  have h2 : pr.2 = n :=
    congrArg (fun t : String × String × String × String => t.2.1) heq
  have h3 : rowStatus fs cfg (previewPairs fs cfg paths) pr.1 pr.2 = s :=
    congrArg (fun t : String × String × String × String => t.2.2.1) heq
  have h4 : pr.1 = p :=
    congrArg (fun t : String × String × String × String => t.2.2.2) heq
  refine ⟨by rw [← h1, h4], ?_, by rw [← h3, h4, h2]⟩
  rw [← h4, ← h2]
  exact hpr

lemma lowerStr_data (s : String) :
    (lowerStr s).data = s.data.map Char.toLower := rfl

/-- C5: for every preview row, if `extension_lock` is on and the selected
cleanup transforms did not alter the extension token (the lowercased
extension of the planned name equals the lowercased extension of the
original name), then the planned name's extension equals the original
extension exactly, and the row's status is never `Extension Locked`. -/
theorem c5_extension_preserved (fs : FS) (cfg : Config) (paths : List String)
    (o n s p : String)
    (hrow : (o, n, s, p) ∈ (generate_preview fs cfg paths).1)
    (_hlock : cfg.extension_lock = true)
    (hyp : lowerStr (splitextExt n) = lowerStr (splitextExt o)) :
    splitextExt n = splitextExt o ∧ s ≠ "Extension Locked" := by
  obtain ⟨ho, hpair, hst⟩ := row_elim hrow
  obtain ⟨c, hn⟩ := previewPass_mem hpair
  constructor
  · subst ho
    rcases builtName_ext_shape cfg c p with h | h | h | h
    · rw [hn, h]
    · -- the planned extension is empty, so by the hypothesis so is the other
      have hnil : (splitextExt n).data = [] := by rw [hn]; exact h
      have hlow : lowerStr (splitextExt (basename p)) = "" := by
        rw [← hyp]
        refine string_data_inj ?_
        rw [lowerStr_data, hnil]
        rfl
      have ho2 : (splitextExt (basename p)).data = [] := by
        have hc := congrArg String.data hlow
        rw [lowerStr_data] at hc
        exact List.map_eq_nil_iff.mp hc
      exact string_data_inj (by rw [hnil, ho2])
    · -- the original extension is a bare dot
      have hod : (splitextExt (basename p)).data = ['.'] := h.2
      have hnn : (splitextExt n).data.map Char.toLower = ['.'] := by
        have hcd := congrArg String.data hyp
        rw [lowerStr_data, lowerStr_data, hod] at hcd
        rw [show (['.'] : List Char).map Char.toLower = ['.'] from by decide]
          at hcd
        exact hcd
      rcases extChars_shape n.data with h0 | ⟨E, hx, -, -⟩
      · rw [show (splitextExt n).data = extChars n.data from rfl, h0] at hnn
        exact absurd hnn (by decide)
      · rw [show (splitextExt n).data = extChars n.data from rfl, hx] at hnn
        have hE : E = [] := by
          have hlen := congrArg List.length hnn
          simp only [List.length_map, List.length_cons, List.length_nil]
            at hlen
          exact List.eq_nil_of_length_eq_zero (by omega)
        refine string_data_inj ?_
        rw [show (splitextExt n).data = extChars n.data from rfl, hx, hE, hod]
    · -- the original extension is empty, so by the hypothesis so is the other
      have hlow : lowerStr (splitextExt n) = "" := by
        rw [hyp]
        refine string_data_inj ?_
        rw [lowerStr_data, h]
        rfl
      have hn2 : (splitextExt n).data = [] := by
        have hc := congrArg String.data hlow
        rw [lowerStr_data] at hc
        exact List.map_eq_nil_iff.mp hc
      exact string_data_inj (by rw [hn2, h])
  · subst ho
    rw [hst]
    apply rowStatus_ne_extLocked
    have hdet : _detect_extension_change (basename p) n = false := by
      unfold _detect_extension_change
      rw [hyp]
      simp
    rw [hdet, Bool.and_false]

/-- Witness for C5 at Example 1: row `("a.txt", "new_a.txt", "Ready", …)`
preserves the `.txt` extension and is not Extension Locked. -/
theorem c5_extension_preserved_witness :
    splitextExt "new_a.txt" = splitextExt "a.txt" ∧
    ("Ready" : String) ≠ "Extension Locked" := by
  refine c5_extension_preserved
    ⟨fun p => p == "/d/a.txt", fun _ => 0, fun _ => 0, fun p => p⟩
    { pre := "new_" } ["/d/a.txt"] "a.txt" "new_a.txt" "Ready" "/d/a.txt"
    (by decide) rfl rfl

/-- C10 (amended): a preview row receives status `Extension Locked` only
when a cleanup transform is enabled and the file's original extension token
is the bare dot `"."` (name ending in a dot); for any other file the status
never appears, because the naming formula appends the original extension
last and the cleaner reattaches the token it split off. As stated
("never returns Extension Locked") the claim is refuted by
`c10_counterexample`. -/
theorem c10_extension_locked_only (fs : FS) (cfg : Config)
    (paths : List String) (o n s p : String)
    (hrow : (o, n, s, p) ∈ (generate_preview fs cfg paths).1)
    (hs : s = "Extension Locked") :
    anyCleanup cfg = true ∧ (splitextExt o).data = ['.'] := by
  obtain ⟨ho, hpair, hst⟩ := row_elim hrow
  obtain ⟨c, hn⟩ := previewPass_mem hpair
  subst ho
  have hdet := rowStatus_extLocked_imp (hst ▸ hs)
  rw [Bool.and_eq_true] at hdet
  have hd := hdet.2
  unfold _detect_extension_change at hd
  simp only [Bool.and_eq_true, bne_iff_ne] at hd
  rcases builtName_ext_shape cfg c p with h | h | h | h
  · refine absurd ?_ hd.1.1
    refine congrArg lowerStr ?_
    rw [hn, h]
  · refine absurd ?_ hd.2
    refine string_data_inj ?_
    rw [lowerStr_data, hn, h]
    rfl
  · exact h
  · refine absurd ?_ hd.1.2
    refine string_data_inj ?_
    rw [lowerStr_data, h]
    rfl

/-- Counterexample to C10 as stated: the file `/d/b.x.` (extension token
`"."`) with `convert_case` enabled produces a row with status
`Extension Locked`: the cleaner turns `b.x.` into `b.x`, whose extension
token `.x` differs from the original `"."`. -/
theorem c10_counterexample :
    (generate_preview
      ⟨fun p => p == "/d/b.x.", fun _ => 0, fun _ => 0, fun p => p⟩
      { convert_case := true } ["/d/b.x."]).1 =
      [("b.x.", "b.x", "Extension Locked", "/d/b.x.")] := rfl

/-- Witness for C10 at the `/d/b.x.` row. -/
theorem c10_extension_locked_only_witness :
    anyCleanup { convert_case := true } = true ∧
    (splitextExt "b.x.").data = ['.'] :=
  c10_extension_locked_only
    ⟨fun p => p == "/d/b.x.", fun _ => 0, fun _ => 0, fun p => p⟩
    { convert_case := true } ["/d/b.x."]
    "b.x." "b.x" "Extension Locked" "/d/b.x." (by decide) rfl

end BulkRenamer
